import Mathlib

attribute [local semireducible] Rat.add Rat.sub Rat.mul Rat.inv

/-!
# Verification of `lightautoml/addons/utilization/utilization.py`

A shallow embedding of the `TimeUtilization` orchestrator: nested string-keyed
dictionaries (seed maps and configuration/kwargs structures), the random-state
locator `_search_for_key` and generator `_get_upd_states`, the kwargs merge of
`fit_predict`, the multistart scheduling loop, the drop-last / pruning
post-processing, the two-level blend construction and `predict`.

Python dictionaries are modelled as insertion-ordered association structures.
Seed maps (`random_state_keys` and everything `_search_for_key` /
`_get_upd_states` produce) hold only integers and nested mappings, so they get
their own type `SDict`; general configuration / kwargs values are modelled by
`JDict`, whose non-mapping leaves are integers or strings (an opaque scalar
representative).  Keys of dictionaries originating from Python are pairwise
distinct at every level; the embedding's operations agree with Python on such
inputs.
-/

/-- Seed-map dictionary: string keys, each value either an integer seed or a
nested seed-map.  Mirrors the dicts built by `_search_for_key` and
`_get_upd_states`. -/
inductive SDict : Type where
  | nil : SDict
  | consInt (k : String) (n : Int) (rest : SDict) : SDict
  | consDict (k : String) (sub : SDict) (rest : SDict) : SDict
deriving DecidableEq, Repr

/-- View of one seed-map value: integer leaf or nested mapping. -/
inductive SV : Type where
  | int (n : Int) : SV
  | dict (d : SDict) : SV
deriving DecidableEq, Repr

/-- General JSON-ish dictionary for configs / kwargs: values are integers,
opaque strings, or nested dictionaries. -/
inductive JDict : Type where
  | nil : JDict
  | consInt (k : String) (n : Int) (rest : JDict) : JDict
  | consStr (k : String) (s : String) (rest : JDict) : JDict
  | consDict (k : String) (sub : JDict) (rest : JDict) : JDict
deriving DecidableEq, Repr

/-- View of one `JDict` value. -/
inductive JV : Type where
  | int (n : Int) : JV
  | str (s : String) : JV
  | dict (d : JDict) : JV
deriving DecidableEq, Repr

namespace SDict

/-- First-occurrence lookup, as in a Python dict (`d[k]`). -/
def lookupV : SDict → String → Option SV
  | .nil, _ => none
  | .consInt k' n r, k => if k' = k then some (.int n) else r.lookupV k
  | .consDict k' s r, k => if k' = k then some (.dict s) else r.lookupV k

/-- Python `k in d`. -/
def hasKey (d : SDict) (k : String) : Bool := (d.lookupV k).isSome

/-- Python `len(d) == 0`. -/
def isEmpty : SDict → Bool
  | .nil => true
  | _ => false

/-- Rebuild a cons cell from a view value. -/
def consV (k : String) : SV → SDict → SDict
  | .int n, r => .consInt k n r
  | .dict s, r => .consDict k s r

/-- Python dict assignment `d[k] = v`: replaces the value in place when the key
is present (keeping its position), otherwise appends the new entry. -/
def set : SDict → String → SV → SDict
  | .nil, k, v => consV k v .nil
  | .consInt k' n r, k, v => if k' = k then consV k v r else .consInt k' n (r.set k v)
  | .consDict k' s r, k, v => if k' = k then consV k v r else .consDict k' s (r.set k v)

/-- Integer found by descending along a path of keys; `some` only when the path
ends at an integer leaf. -/
def leafAt (d : SDict) : List String → Option Int
  | [] => none
  | k :: rest =>
    match d.lookupV k, rest with
    | some (.int n), [] => some n
    | some (.dict s), (k' :: rs) => s.leafAt (k' :: rs)
    | _, _ => none

/-- Paths to all integer leaves, in insertion order. -/
def leafPaths : SDict → List (List String)
  | .nil => []
  | .consInt k _ r => [k] :: r.leafPaths
  | .consDict k s r => (s.leafPaths.map (fun p => k :: p)) ++ r.leafPaths

/-- Whether both seed maps have identical shape: same keys in the same order,
with leaves and sub-maps in the same positions. -/
def sameShapeB : SDict → SDict → Bool
  | .nil, .nil => true
  | .consInt k _ r, .consInt k' _ r' => k = k' && r.sameShapeB r'
  | .consDict k s r, .consDict k' s' r' => k = k' && s.sameShapeB s' && r.sameShapeB r'
  | _, _ => false

end SDict

/-- `TimeUtilization._get_upd_states`: rebuilds the seed map, adding
`upd_value` to every integer leaf and recursing into nested mappings
(`d[k] = random_state_keys[k] + upd_value` / recursive call), producing a
fresh structure. -/
def getUpdStates : SDict → Int → SDict
  | .nil, _ => .nil
  | .consInt k n r, u => .consInt k (n + u) (getUpdStates r u)
  | .consDict k s r, u => .consDict k (getUpdStates s u) (getUpdStates r u)

/-- The value transform `_get_upd_states` applies to a single entry. -/
def updSV (u : Int) : SV → SV
  | .int n => .int (n + u)
  | .dict s => .dict (getUpdStates s u)

namespace JDict

/-- First-occurrence lookup (`d[k]` / `d.get(k)`). -/
def lookupV : JDict → String → Option JV
  | .nil, _ => none
  | .consInt k' n r, k => if k' = k then some (.int n) else r.lookupV k
  | .consStr k' s r, k => if k' = k then some (.str s) else r.lookupV k
  | .consDict k' d r, k => if k' = k then some (.dict d) else r.lookupV k

/-- Python `k in d`. -/
def hasKey (d : JDict) (k : String) : Bool := (d.lookupV k).isSome

/-- Rebuild a cons cell from a view value. -/
def consV (k : String) : JV → JDict → JDict
  | .int n, r => .consInt k n r
  | .str s, r => .consStr k s r
  | .dict d, r => .consDict k d r

/-- Python dict assignment `d[k] = v`: replace in place if present, else
append. -/
def set : JDict → String → JV → JDict
  | .nil, k, v => consV k v .nil
  | .consInt k' n r, k, v => if k' = k then consV k v r else .consInt k' n (r.set k v)
  | .consStr k' s r, k, v => if k' = k then consV k v r else .consStr k' s (r.set k v)
  | .consDict k' d r, k, v => if k' = k then consV k v r else .consDict k' d (r.set k v)

/-- Python `del d[k]` (removes every entry with that key; a Python dict has at
most one). -/
def eraseKey : JDict → String → JDict
  | .nil, _ => .nil
  | .consInt k' n r, k => if k' = k then r.eraseKey k else .consInt k' n (r.eraseKey k)
  | .consStr k' s r, k => if k' = k then r.eraseKey k else .consStr k' s (r.eraseKey k)
  | .consDict k' d r, k => if k' = k then r.eraseKey k else .consDict k' d (r.eraseKey k)

/-- Concatenation of the underlying entry sequences. -/
def append : JDict → JDict → JDict
  | .nil, d2 => d2
  | .consInt k n r, d2 => .consInt k n (r.append d2)
  | .consStr k s r, d2 => .consStr k s (r.append d2)
  | .consDict k d r, d2 => .consDict k d (r.append d2)

/-- Entries of the first dict, with the value replaced by the second dict's
value whenever the second dict also holds the key. -/
def overrideVals : JDict → JDict → JDict
  | .nil, _ => .nil
  | .consInt k n r, d2 => consV k ((d2.lookupV k).getD (.int n)) (r.overrideVals d2)
  | .consStr k s r, d2 => consV k ((d2.lookupV k).getD (.str s)) (r.overrideVals d2)
  | .consDict k d r, d2 => consV k ((d2.lookupV k).getD (.dict d)) (r.overrideVals d2)

/-- Entries of the first dict whose key is absent from the second. -/
def restOf : JDict → JDict → JDict
  | .nil, _ => .nil
  | .consInt k n r, d2 => if d2.hasKey k then r.restOf d2 else .consInt k n (r.restOf d2)
  | .consStr k s r, d2 => if d2.hasKey k then r.restOf d2 else .consStr k s (r.restOf d2)
  | .consDict k d r, d2 => if d2.hasKey k then r.restOf d2 else .consDict k d (r.restOf d2)

/-- Python `{**d1, **d2}`: `d1`'s keys in order with `d2`'s values taking
precedence, followed by `d2`'s remaining keys in order. -/
def unionRight (d1 d2 : JDict) : JDict := (d1.overrideVals d2).append (d2.restOf d1)

end JDict

/-- Embedding of a seed map into the general dictionary type. -/
def SDict.toJ : SDict → JDict
  | .nil => .nil
  | .consInt k n r => .consInt k n r.toJ
  | .consDict k s r => .consDict k s.toJ r.toJ

/-- The kwargs-combination loop of `TimeUtilization.fit_predict`
(lines 227-233): `cur_kwargs = self.kwargs.copy()`, then for every top-level
key `k` of the freshly generated `random_states`, if `k` also occurs in
`self.kwargs`, replace `random_states[k]` by the one-level merge
`{**cur_kwargs[k], **random_states[k]}` and `del cur_kwargs[k]`.
Returns `(random_states, cur_kwargs)` after the loop; `none` models the
`TypeError` Python raises when a colliding entry is not a mapping on both
sides.  (Keys of a Python dict are distinct, so erasing the processed key
immediately is equivalent to testing membership in the original `kwargs`.) -/
def combineKwargs : JDict → JDict → Option (JDict × JDict)
  | .nil, kw => some (.nil, kw)
  | .consInt k n rest, kw =>
    match kw.lookupV k with
    | none => (combineKwargs rest kw).map (fun rw => (.consInt k n rw.1, rw.2))
    | some _ => none
  | .consStr k s rest, kw =>
    match kw.lookupV k with
    | none => (combineKwargs rest kw).map (fun rw => (.consStr k s rw.1, rw.2))
    | some _ => none
  | .consDict k sub rest, kw =>
    match kw.lookupV k with
    | none => (combineKwargs rest kw).map (fun rw => (.consDict k sub rw.1, rw.2))
    | some (.dict d1) =>
      (combineKwargs rest (kw.eraseKey k)).map
        (fun rw => (.consDict k (JDict.unionRight d1 sub) rw.1, rw.2))
    | some _ => none

/-- Modelled from the spec: the deep merge the specification describes for the
kwargs collision ("the override's nested values take precedence and are
deep-merged with the caller's, not simply replaced").  The second argument is
the override; at every depth its scalar entries replace the caller's, and
mapping-valued entries merge recursively.  Used only to compare the code's
one-level merge against the spec's words. -/
def deepMergeJ (d1 : JDict) : JDict → JDict
  | .nil => d1
  | .consInt k n rest => deepMergeJ (d1.set k (.int n)) rest
  | .consStr k s rest => deepMergeJ (d1.set k (.str s)) rest
  | .consDict k sub rest =>
    match d1.lookupV k with
    | some (.dict s1) => deepMergeJ (d1.set k (.dict (deepMergeJ s1 sub))) rest
    | _ => deepMergeJ (d1.set k (.dict sub)) rest

/-- `TimeUtilization._search_for_key` (lines 158-170): `d = {}`; if `key in
config` record `d[key] = value`; then for each entry of `config` in order
whose value is a dict, recurse, and if the recursion is non-empty assign the
sub-result under the same key (`d[k] = s`, which overwrites a previously
recorded entry when `k = key`).  `searchGo` is the `for` loop, carrying the
accumulator `d`. -/
def searchGo (key : String) (value : Int) : JDict → SDict → SDict
  | .nil, d => d
  | .consInt _ _ rest, d => searchGo key value rest d
  | .consStr _ _ rest, d => searchGo key value rest d
  | .consDict k sub rest, d =>
    let s := searchGo key value sub
      (if sub.hasKey key then SDict.consInt key value .nil else .nil)
    searchGo key value rest (if s.isEmpty then d else d.set k (.dict s))

/-- `TimeUtilization._search_for_key`: entry point. -/
def searchForKey (config : JDict) (key : String) (value : Int) : SDict :=
  searchGo key value config
    (if config.hasKey key then SDict.consInt key value .nil else .nil)

/-- Modelled from the spec: "no key at any depth is named as the random-seed
parameter" — whether `key` occurs as a dictionary key anywhere in the nested
structure (descending only into mapping-valued entries, the only ones the
locator can see). -/
def containsKeyDeep : JDict → String → Bool
  | .nil, _ => false
  | .consInt k _ rest, key => k = key || containsKeyDeep rest key
  | .consStr k _ rest, key => k = key || containsKeyDeep rest key
  | .consDict k sub rest, key => k = key || containsKeyDeep sub key || containsKeyDeep rest key

/-- Modelled from the spec: "the paths to such keys" — every key path whose
last component is `key`, reachable by descending through mapping-valued
entries, in insertion order with a level's own match listed first. -/
def pathsToKey (config : JDict) (key : String) : List (List String) :=
  (if config.hasKey key then [[key]] else []) ++ pathsLoop config key
where
  /-- Paths contributed by the mapping-valued entries. -/
  pathsLoop : JDict → String → List (List String)
  | .nil, _ => []
  | .consInt _ _ rest, key => pathsLoop rest key
  | .consStr _ _ rest, key => pathsLoop rest key
  | .consDict k sub rest, key =>
    (pathsToKey sub key).map (fun p => k :: p) ++ pathsLoop rest key

/-- `TimeUtilization.__init__` lines 138-140:
`self.configs_list = configs_list; if configs_list is None:
self.configs_list = [None]`.  Only `None` is replaced by the one-element
default list; any supplied list, including the empty one, is kept as given. -/
def initConfigsList : Option (List (Option String)) → List (Option String)
  | none => [none]
  | some l => l

/-- `MLPipeForAutoMLWrapper.from_automl`: the single-model wrapper; its one
`MLAlgoForAutoMLWrapper` stage holds the raw artifact (`ml_algos[0].models[0]`). -/
structure MLPipeSingle (A : Type) where
  automl : A

/-- The post-fit behaviour of a blender object: the `predict` it exposes once
`fit_predict` has fixed its internal state. -/
structure FittedBlender (P : Type) where
  predict : List P → P

/-- A Blend Strategy collaborator.  `fitPredict preds pipes` yields the blended
prediction, the retained pipelines, and the blender's own fitted state (in
Python `fit_predict` mutates the blender object in place; here the fitted
object is returned). -/
structure Blender (P Pi : Type) where
  fitPredict : List P → List Pi → P × List Pi × FittedBlender P

/-- `MLPipeForAutoMLWrapper.from_blended`: wraps the list of raw artifacts
(`ml_algos[0].models[0]`) together with the fitted inner blender stored on the
wrapper (`ml_pipe.blender = blender`). -/
structure MLPipeBlended (A P : Type) where
  automls : List A
  blender : FittedBlender P

/-- The fixed data of one `TimeUtilization` instance plus its collaborators.
`A` is the opaque trained-artifact type, `P` the prediction type.
`factory c t rs kw` models `automl_factory(task, t, ..., config_path=c,
**rs, **kw)`; `fitp` models `automl.fit_predict(train_data, roles, ...)` on
the fixed training inputs; `dur i` is the wall-clock duration of run `i`
(`PipelineTimer` is a collaborator: modelled from the spec, remaining budget
equals `timeout` minus the sum of the durations spent, with all non-training
work taking no time). -/
structure TUModel (A P : Type) where
  timeout : ℚ
  maxRuns : ℕ
  configs : List (Option String)
  randomStateKeys : SDict
  kwargs : JDict
  factory : Option String → ℚ → JDict → JDict → A
  fitp : A → P
  dur : ℕ → ℚ
  dropLast : Bool
  innerBlend : Blender P (MLPipeSingle A)
  outerBlend : Blender P (MLPipeBlended A P)

/-- The mutable state of `fit_predict`'s scheduling loop (lines 211-218),
together with the object's stored `random_state_keys` (`rsk`) and `kwargs`
(`kw`) as the loop leaves them: the source never reassigns or mutates those
two fields (it reads them, copies `kwargs`, and builds fresh structures), so
a faithful translation threads them through unchanged. -/
structure TUState (A P : Type) where
  n_ms : ℕ
  n_cfg : ℕ
  upd_state_val : ℕ
  history : List ℚ
  amls : List (List (MLPipeSingle A))
  aml_preds : List (List P)
  rsk : SDict
  kw : JDict

/-- One run of the loop body (lines 224-247), for configuration index `j` with
configuration `c`: generate seed overrides from the stored map at offset
`upd_state_val`, advance the counter, merge with a copy of the stored kwargs,
build the automl with the remaining budget, fit it, append the wrapped
artifact and its prediction to group `j`, and append this run's duration to
the history (`timer.time_spent - sum(history)` equals the run's own duration
since only runs consume time).  `none` models the `TypeError` propagating out
of the merge. -/
def runBody {A P : Type} (m : TUModel A P) (j : ℕ) (c : Option String)
    (st : TUState A P) : Option (TUState A P) :=
  let randomStates := getUpdStates st.rsk (st.upd_state_val : Int)
  match combineKwargs randomStates.toJ st.kw with
  | none => none
  | some (rs, curKw) =>
    let automl := m.factory c (m.timeout - st.history.sum) rs curKw
    let valPred := m.fitp automl
    some { st with
      upd_state_val := st.upd_state_val + 1,
      amls := st.amls.set j ((st.amls.getD j []) ++ [⟨automl⟩]),
      aml_preds := st.aml_preds.set j ((st.aml_preds.getD j []) ++ [valPred]),
      history := st.history ++ [m.dur st.history.length] }

/-- The stop condition of lines 248-249, evaluated right after a run:
`timer.time_left < sum(history) / len(history)` or
`upd_state_val >= max_runs_per_config * len(configs_list)`. -/
def stopNow {A P : Type} (m : TUModel A P) (st : TUState A P) : Bool :=
  decide (m.timeout - st.history.sum < st.history.sum / (st.history.length : ℚ)) ||
  decide (m.maxRuns * m.configs.length ≤ st.upd_state_val)

/-- The inner `for n_cfg, config in enumerate(self.configs_list)` loop: sets
`n_cfg`, runs the body, and either breaks with `flg_continute = False`
(second component `false`) or continues; `none` propagates an exception. -/
def innerLoop {A P : Type} (m : TUModel A P) :
    List (ℕ × Option String) → TUState A P → Option (TUState A P × Bool)
  | [], st => some (st, true)
  | (j, c) :: rest, st =>
    match runBody m j c { st with n_cfg := j } with
    | none => none
    | some st1 => if stopNow m st1 then some (st1, false) else innerLoop m rest st1

/-- Result of running the outer `while flg_continute` loop with bounded fuel:
`fuelOut` is a model artifact (the source loop would still be running),
`raised` propagates an exception, `ok` is normal termination. -/
inductive LoopRes (A P : Type) where
  | fuelOut : LoopRes A P
  | raised : LoopRes A P
  | ok (st : TUState A P) : LoopRes A P

/-- The outer `while flg_continute:` loop (line 220): increment `n_ms`, run
one pass over the configurations, repeat while no break occurred. -/
def outerLoop {A P : Type} (m : TUModel A P) : ℕ → TUState A P → LoopRes A P
  | 0, _ => .fuelOut
  | fuel + 1, st =>
    match innerLoop m m.configs.enum { st with n_ms := st.n_ms + 1 } with
    | none => .raised
    | some (st1, true) => outerLoop m fuel st1
    | some (st1, false) => .ok st1

/-- The loop state initialized by lines 211-218. -/
def initState {A P : Type} (m : TUModel A P) : TUState A P :=
  { n_ms := 0, n_cfg := 0, upd_state_val := 0, history := [],
    amls := List.replicate m.configs.length [],
    aml_preds := List.replicate m.configs.length [],
    rsk := m.randomStateKeys, kw := m.kwargs }

/-- Lines 253-261: if more than one multistart pass began and the drop-last
flag is set, pop the most recent entry of the group indexed by the final
`n_cfg` from both lists, then prune every empty group from both lists.
(`List.dropLast` on `[]` is `[]`; Python's `pop` would raise there, but at
every reachable final state the active group is non-empty.) -/
def postProcess {A P : Type} (m : TUModel A P) (st : TUState A P) : TUState A P :=
  let st1 :=
    if 1 < st.n_ms ∧ m.dropLast = true then
      { st with
        amls := st.amls.set st.n_cfg (st.amls.getD st.n_cfg []).dropLast,
        aml_preds := st.aml_preds.set st.n_cfg (st.aml_preds.getD st.n_cfg []).dropLast }
    else st
  { st1 with
    amls := st1.amls.filter (fun x => !x.isEmpty),
    aml_preds := st1.aml_preds.filter (fun x => !x.isEmpty) }

/-- Lines 263-276: per surviving group, fit a deep copy of the inner blender
on (predictions, wrapped pipelines), unwrap the retained pipelines to raw
artifacts and wrap them with the fitted inner blender; then fit the outer
blender over the per-group blended predictions and blended wrappers. -/
def blendPhase {A P : Type} (m : TUModel A P) (preds : List (List P))
    (pipes : List (List (MLPipeSingle A))) :
    P × List (MLPipeBlended A P) × FittedBlender P :=
  let inner := (preds.zip pipes).map (fun pp =>
    let r := m.innerBlend.fitPredict pp.1 pp.2
    (r.1, MLPipeBlended.mk (r.2.1.map (fun x => x.automl)) r.2.2))
  m.outerBlend.fitPredict (inner.map (fun x => x.1)) (inner.map (fun x => x.2))

/-- The orchestrator's persisted fit state: `self.outer_pipes` and the fitted
outer blender (`self.outer_blend` after its in-place `fit_predict`). -/
structure TUFit (A P : Type) where
  outer_pipes : List (MLPipeBlended A P)
  outer_blend_fitted : FittedBlender P

/-- `TimeUtilization.fit_predict` end-to-end: run the scheduler, apply
drop-last and pruning, blend.  Returns the outer blended prediction, the
persisted fit state, and the stored `random_state_keys` / `kwargs` fields as
the call leaves them.  `none` when the loop does not terminate within `fuel`
or an exception propagates. -/
def tuFitPredict {A P : Type} (m : TUModel A P) (fuel : ℕ) :
    Option (P × TUFit A P × SDict × JDict) :=
  match outerLoop m fuel (initState m) with
  | .ok st =>
    let st' := postProcess m st
    let r := blendPhase m st'.aml_preds st'.amls
    some (r.1, ⟨r.2.1, r.2.2⟩, st.rsk, st.kw)
  | _ => none

/-- `TimeUtilization.predict` (lines 280-307): for each retained outer
wrapper, predict with every raw artifact, combine with the wrapper's stored
inner blender's `predict`, then combine across wrappers with the fitted outer
blender's `predict`.  `prd a` models `a.predict(data, features_names)` on the
fixed inference inputs. -/
def tuPredict {A P : Type} (fit : TUFit A P) (prd : A → P) : P :=
  fit.outer_blend_fitted.predict
    (fit.outer_pipes.map (fun w => w.blender.predict (w.automls.map prd)))

/-- Total time spent after `k` runs. -/
def spent {A P : Type} (m : TUModel A P) (k : ℕ) : ℚ := ((List.range k).map m.dur).sum

/-- The stop condition as a function of the number of completed runs: after
`k` runs the remaining budget is below the mean recorded duration, or the run
counter has reached `max_runs_per_config * len(configs_list)`. -/
def stopAfter {A P : Type} (m : TUModel A P) (k : ℕ) : Prop :=
  m.timeout - spent m k < spent m k / (k : ℚ) ∨ m.maxRuns * m.configs.length ≤ k

instance {A P : Type} (m : TUModel A P) (k : ℕ) : Decidable (stopAfter m k) :=
  inferInstanceAs (Decidable (_ ∨ _))

/-- The seed-override / kwargs merge prepared for run `i` (both taken from the
orchestrator's stored fields, the seed map at generation offset `i`). -/
def mergedAt {A P : Type} (m : TUModel A P) (i : ℕ) : Option (JDict × JDict) :=
  combineKwargs (getUpdStates m.randomStateKeys (i : Int)).toJ m.kwargs

/-- The artifact built at global run `i` (configuration `i % len(configs)`,
remaining budget `timeout - spent i`); `default` is unreachable whenever the
merge at run `i` succeeds. -/
def totAutoAt {A P : Type} [Inhabited A] (m : TUModel A P) (i : ℕ) : A :=
  match mergedAt m i with
  | some (rs, kw) =>
    m.factory (m.configs.getD (i % m.configs.length) none) (m.timeout - spent m i) rs kw
  | none => default

/-- The run groups an execution of `k` runs produces: group `g` holds the
wrapped artifacts of runs `i < k` with `i % len(configs) = g`, in run order. -/
def idealAmls {A P : Type} [Inhabited A] (m : TUModel A P) (k : ℕ) :
    List (List (MLPipeSingle A)) :=
  (List.range m.configs.length).map
    (fun g => ((List.range k).filter (fun i => i % m.configs.length == g)).map
      (fun i => ⟨totAutoAt m i⟩))

/-- The prediction groups matching `idealAmls`. -/
def idealPreds {A P : Type} [Inhabited A] (m : TUModel A P) (k : ℕ) : List (List P) :=
  (List.range m.configs.length).map
    (fun g => ((List.range k).filter (fun i => i % m.configs.length == g)).map
      (fun i => m.fitp (totAutoAt m i)))

/-- The loop state after exactly `k` successful runs of the schedule
(run `i` at configuration `i % len(configs)` during pass `i / len(configs)
+ 1`), with `none` once an exception has occurred. -/
def stateAfter {A P : Type} (m : TUModel A P) : ℕ → Option (TUState A P)
  | 0 => some (initState m)
  | k + 1 => (stateAfter m k).bind (fun st =>
      runBody m (k % m.configs.length) (m.configs.getD (k % m.configs.length) none)
        { st with n_cfg := k % m.configs.length, n_ms := k / m.configs.length + 1 })

/-- Integer found by descending a `JDict` along a path of keys. -/
def JDict.leafIntAt (d : JDict) : List String → Option Int
  | [] => none
  | k :: rest =>
    match d.lookupV k, rest with
    | some (.int n), [] => some n
    | some (.dict s), (k' :: rs) => s.leafIntAt (k' :: rs)
    | _, _ => none

/-- A blend strategy satisfies the Blend Strategy contract of the spec when,
whichever predictions correspond index-wise to the pipelines it is fitted on,
its fitted `predict` applied to the predictions of the retained pipelines
reproduces the blended prediction. -/
def BlenderContract {P Pi : Type} (B : Blender P Pi) : Prop :=
  ∀ (π : Pi → P) (pipes : List Pi),
    ((B.fitPredict (pipes.map π) pipes).2.2).predict
        (((B.fitPredict (pipes.map π) pipes).2.1).map π) =
      (B.fitPredict (pipes.map π) pipes).1

/-- A deterministic blend strategy retaining every pipeline and blending by
taking the first prediction; it satisfies `BlenderContract`. -/
def headBlender {P Pi : Type} (d : P) : Blender P Pi :=
  ⟨fun ps pipes => (ps.headD d, pipes, ⟨fun qs => qs.headD d⟩)⟩

/-- Concrete model: two configurations, tiny runs, a budget that is never
exhausted, `max_runs_per_config = 1`; the scheduler stops after run 2 by the
run counter. -/
def mW1 : TUModel Unit Unit :=
  { timeout := 10, maxRuns := 1, configs := [none, none],
    randomStateKeys := SDict.nil, kwargs := JDict.nil,
    factory := fun _ _ _ _ => (), fitp := fun _ => (),
    dur := fun _ => 0, dropLast := true,
    innerBlend := headBlender (), outerBlend := headBlender () }

/-- The final loop state of `mW1`. -/
def stW1 : TUState Unit Unit :=
  match outerLoop mW1 3 (initState mW1) with
  | LoopRes.ok st => st
  | _ => initState mW1

/-- The `fit_predict` result of `mW1`. -/
def fitW1 : Unit × TUFit Unit Unit × SDict × JDict :=
  match tuFitPredict mW1 3 with
  | some x => x
  | none => ((), ⟨[], ⟨fun _ => ()⟩⟩, SDict.nil, JDict.nil)

/-- Concrete model whose configuration list is empty (as an empty list, not
`None`). -/
def mC2 : TUModel Unit Unit :=
  { timeout := 10, maxRuns := 1, configs := [],
    randomStateKeys := SDict.nil, kwargs := JDict.nil,
    factory := fun _ _ _ _ => (), fitp := fun _ => (),
    dur := fun _ => 0, dropLast := true,
    innerBlend := headBlender (), outerBlend := headBlender () }

/-- Concrete model: two configurations, budget 100, and a first run lasting
200; the mean-based stop fires right after run 1. -/
def mC4 : TUModel Unit Unit :=
  { timeout := 100, maxRuns := 5, configs := [none, none],
    randomStateKeys := SDict.nil, kwargs := JDict.nil,
    factory := fun _ _ _ _ => (), fitp := fun _ => (),
    dur := fun _ => 200, dropLast := true,
    innerBlend := headBlender (), outerBlend := headBlender () }

/-- The final loop state of `mC4`. -/
def stC4 : TUState Unit Unit :=
  match outerLoop mC4 9 (initState mC4) with
  | LoopRes.ok st => st
  | _ => initState mC4

/-- Concrete model: three configurations, `max_runs_per_config = 1`, ample
budget; the counter stops the loop after 3 runs, all inside the first pass. -/
def mC5 : TUModel Unit Unit :=
  { timeout := 1000, maxRuns := 1, configs := [none, none, none],
    randomStateKeys := SDict.nil, kwargs := JDict.nil,
    factory := fun _ _ _ _ => (), fitp := fun _ => (),
    dur := fun _ => 1, dropLast := true,
    innerBlend := headBlender (), outerBlend := headBlender () }

/-- The final loop state of `mC5`. -/
def stC5 : TUState Unit Unit :=
  match outerLoop mC5 9 (initState mC5) with
  | LoopRes.ok st => st
  | _ => initState mC5

/-- Concrete model: one configuration, three multistart passes; drop-last
applies. -/
def mW5 : TUModel Unit Unit :=
  { timeout := 1000, maxRuns := 3, configs := [none],
    randomStateKeys := SDict.nil, kwargs := JDict.nil,
    factory := fun _ _ _ _ => (), fitp := fun _ => (),
    dur := fun _ => 1, dropLast := true,
    innerBlend := headBlender (), outerBlend := headBlender () }

/-- The final loop state of `mW5`. -/
def stW5 : TUState Unit Unit :=
  match outerLoop mW5 9 (initState mW5) with
  | LoopRes.ok st => st
  | _ => initState mW5

/-- Concrete model with non-trivial artifacts and predictions for the
round-trip property. -/
def mW8 : TUModel ℕ ℕ :=
  { timeout := 10, maxRuns := 1, configs := [none],
    randomStateKeys := SDict.consInt "random_state" 42 SDict.nil,
    kwargs := JDict.nil,
    factory := fun _ _ _ _ => 5, fitp := fun a => a + 1,
    dur := fun _ => 1, dropLast := false,
    innerBlend := headBlender 0, outerBlend := headBlender 0 }

/-- The `fit_predict` result of `mW8`. -/
def fitW8 : ℕ × TUFit ℕ ℕ × SDict × JDict :=
  match tuFitPredict mW8 3 with
  | some x => x
  | none => (0, ⟨[], ⟨fun _ => 0⟩⟩, SDict.nil, JDict.nil)

/-- Caller kwargs `{"a": {"b": {"c": 1, "d": 2}}}`. -/
def kwC3 : JDict :=
  JDict.consDict "a"
    (JDict.consDict "b" (JDict.consInt "c" 1 (JDict.consInt "d" 2 JDict.nil)) JDict.nil)
    JDict.nil

/-- Seed overrides `{"a": {"b": {"c": 42}}}` colliding with `kwC3` at `"a"`. -/
def rsC3 : JDict :=
  JDict.consDict "a" (JDict.consDict "b" (JDict.consInt "c" 42 JDict.nil) JDict.nil)
    JDict.nil

/-- The merged overrides the code produces for `rsC3` over `kwC3`. -/
def mergedC3 : JDict :=
  match combineKwargs rsC3 kwC3 with
  | some (rs, _) => rs
  | none => JDict.nil

/-- The merge the spec describes for the same input (deep merge, override
precedence at every depth). -/
def specMergedC3 : JDict := deepMergeJ kwC3 rsC3

/-- Seed map `{"a": {"seed": 42}}`. -/
def seedMapEx : SDict :=
  SDict.consDict "a" (SDict.consInt "seed" 42 SDict.nil) SDict.nil

/-- Configuration in which a key named as the seed parameter itself holds a
mapping that contains the seed parameter. -/
def cfgC7 : JDict :=
  JDict.consDict "random_state" (JDict.consInt "random_state" 7 JDict.nil) JDict.nil

/-- Modelled from the spec: keys are pairwise distinct at every level, the
invariant every structure originating from a Python dict satisfies. -/
def nodupKeysDeep : JDict → Bool
  | .nil => true
  | .consInt k _ rest => !(rest.hasKey k) && nodupKeysDeep rest
  | .consStr k _ rest => !(rest.hasKey k) && nodupKeysDeep rest
  | .consDict k sub rest => !(rest.hasKey k) && nodupKeysDeep sub && nodupKeysDeep rest

/-- No key named as the seed parameter holds, at any level, a mapping that
itself contains the seed parameter (the situation in which `_search_for_key`
overwrites an already recorded match). -/
def cleanFor (key : String) : JDict → Bool
  | .nil => true
  | .consInt _ _ rest => cleanFor key rest
  | .consStr _ _ rest => cleanFor key rest
  | .consDict k sub rest =>
    (!(k == key && containsKeyDeep sub key)) && cleanFor key sub && cleanFor key rest

/-- All integer leaves of a seed map equal `v`. -/
def SDict.allLeaves (v : Int) : SDict → Bool
  | .nil => true
  | .consInt _ n r => (n == v) && r.allLeaves v
  | .consDict _ s r => s.allLeaves v && r.allLeaves v

/-- Whether some mapping-valued entry of the dictionary contains `key` at any
depth — what the locator's `for` loop (as opposed to its own-level membership
test) can observe. -/
def dictsContain : JDict → String → Bool
  | .nil, _ => false
  | .consInt _ _ rest, key => dictsContain rest key
  | .consStr _ _ rest, key => dictsContain rest key
  | .consDict _ sub rest, key => containsKeyDeep sub key || dictsContain rest key

/-- Configuration `{"x": {"random_state": 1}, "y": 3}` with one seed key at
depth 2. -/
def cfgW7 : JDict :=
  JDict.consDict "x" (JDict.consInt "random_state" 1 JDict.nil)
    (JDict.consInt "y" 3 JDict.nil)

/-! ## Theorems -/

theorem lookupV_getUpdStates (d : SDict) (u : Int) (k : String) :
    (getUpdStates d u).lookupV k = (d.lookupV k).map (updSV u) := by
  induction d with
  | nil => rfl
  | consInt k' n r ih =>
    by_cases h : k' = k <;> simp [getUpdStates, SDict.lookupV, h, ih, updSV]
  | consDict k' s r ihs ihr =>
    by_cases h : k' = k <;> simp [getUpdStates, SDict.lookupV, h, ihr, updSV]

theorem leafAt_getUpdStates (p : List String) :
    ∀ (d : SDict) (u : Int), (getUpdStates d u).leafAt p = (d.leafAt p).map (· + u) := by
  induction p with
  | nil => intro d u; rfl
  | cons k rest ih =>
    intro d u
    cases h : d.lookupV k with
    | none => simp [SDict.leafAt, lookupV_getUpdStates, h]
    | some v =>
      cases v with
      | int n => cases rest <;> simp [SDict.leafAt, lookupV_getUpdStates, h, updSV]
      | dict s => cases rest <;> simp [SDict.leafAt, lookupV_getUpdStates, h, updSV, ih]

theorem sameShapeB_getUpdStates (d : SDict) (u : Int) :
    (getUpdStates d u).sameShapeB d = true := by
  induction d with
  | nil => rfl
  | consInt k n r ih => simp [getUpdStates, SDict.sameShapeB, ih]
  | consDict k s r ihs ihr => simp [getUpdStates, SDict.sameShapeB, ihs, ihr]

theorem groupsSucc {α : Type} (n k : ℕ) (f : ℕ → α) :
    (List.range n).map (fun g => ((List.range (k+1)).filter (fun i => i % n == g)).map f) =
      ((List.range n).map (fun g => ((List.range k).filter (fun i => i % n == g)).map f)).set
        (k % n)
        ((((List.range n).map
            (fun g => ((List.range k).filter (fun i => i % n == g)).map f)).getD (k % n) [])
          ++ [f k]) := by
  rcases Nat.eq_zero_or_pos n with hn | hn
  · subst hn; simp
  · have hmod : k % n < n := Nat.mod_lt _ hn
    apply List.ext_getElem
    · simp
    · intro i h1 h2
      have hi : i < n := by simpa using h1
      simp only [List.getElem_set, List.getElem_map, List.getElem_range]
      rw [List.getD_eq_getElem _ _ (by simpa using hmod), List.getElem_map, List.getElem_range,
        List.range_succ, List.filter_append, List.map_append]
      by_cases hk : k % n = i
      · simp [List.filter_singleton, hk]
      · simp [List.filter_singleton, hk]

theorem stateAfter_none_mono {A P : Type} (m : TUModel A P) (a : ℕ)
    (h : stateAfter m a = none) : ∀ b, a ≤ b → stateAfter m b = none := by
  intro b hab
  induction b, hab using Nat.le_induction with
  | base => exact h
  | succ b hb ih => rw [stateAfter, ih]; rfl

theorem stateAfter_nms {A P : Type} (m : TUModel A P) (k : ℕ) (st : TUState A P)
    (h : stateAfter m (k+1) = some st) :
    st.n_ms = k / m.configs.length + 1 ∧ st.n_cfg = k % m.configs.length := by
  rw [stateAfter] at h
  cases hk : stateAfter m k with
  | none => rw [hk] at h; simp at h
  | some st0 =>
    rw [hk] at h
    simp only [Option.some_bind] at h
    rw [runBody] at h
    cases hc : combineKwargs (getUpdStates st0.rsk st0.upd_state_val).toJ st0.kw with
    | none => rw [hc] at h; simp at h
    | some rw' =>
      rw [hc] at h
      simp only [Option.some_inj] at h
      subst h
      exact ⟨rfl, rfl⟩

theorem stateAfter_spec {A P : Type} [Inhabited A] (m : TUModel A P) :
    ∀ (k : ℕ) (st : TUState A P), stateAfter m k = some st →
      st.upd_state_val = k ∧ st.history = (List.range k).map m.dur ∧
      st.rsk = m.randomStateKeys ∧ st.kw = m.kwargs ∧
      st.amls = idealAmls m k ∧ st.aml_preds = idealPreds m k := by
  intro k
  induction k with
  | zero =>
    intro st h
    rw [stateAfter, Option.some_inj] at h
    subst h
    refine ⟨rfl, rfl, rfl, rfl, ?_, ?_⟩ <;>
      simp [initState, idealAmls, idealPreds, List.map_const']
  | succ k ih =>
    intro st h
    rw [stateAfter] at h
    cases hk : stateAfter m k with
    | none => rw [hk] at h; simp at h
    | some st0 =>
      rw [hk] at h
      simp only [Option.some_bind] at h
      obtain ⟨hupd, hhist, hrsk, hkw, hamls, hpreds⟩ := ih st0 hk
      rw [runBody] at h
      rw [hrsk, hkw, hupd] at h
      cases hm : combineKwargs (getUpdStates m.randomStateKeys (k : Int)).toJ m.kwargs with
      | none => rw [hm] at h; simp at h
      | some rskw =>
        obtain ⟨rs, curKw⟩ := rskw
        rw [hm] at h
        simp only [Option.some_inj] at h
        subst h
        have hsum : st0.history.sum = spent m k := by rw [hhist]; rfl
        have hlen : st0.history.length = k := by rw [hhist]; simp
        have hmm : mergedAt m k = some (rs, curKw) := hm
        have hauto : m.factory (m.configs.getD (k % m.configs.length) none)
            (m.timeout - st0.history.sum) rs curKw = totAutoAt m k := by
          rw [hsum]
          unfold totAutoAt
          rw [hmm]
        refine ⟨rfl, ?_, rfl, rfl, ?_, ?_⟩
        · show st0.history ++ [m.dur st0.history.length] = _
          rw [hlen, hhist, List.range_succ, List.map_append, List.map_cons, List.map_nil]
        · show st0.amls.set (k % m.configs.length)
            (st0.amls.getD (k % m.configs.length) [] ++ [⟨_⟩]) = _
          rw [hamls, hauto]
          unfold idealAmls
          exact (groupsSucc m.configs.length k
            (fun i => (⟨totAutoAt m i⟩ : MLPipeSingle A))).symm
        · show st0.aml_preds.set (k % m.configs.length)
            (st0.aml_preds.getD (k % m.configs.length) [] ++ [m.fitp _]) = _
          rw [hpreds, hauto]
          unfold idealPreds
          exact (groupsSucc m.configs.length k (fun i => m.fitp (totAutoAt m i))).symm

theorem stopNow_stateAfter {A P : Type} [Inhabited A] (m : TUModel A P) (k : ℕ)
    (st : TUState A P) (h : stateAfter m k = some st) :
    (stopNow m st = true ↔ stopAfter m k) := by
  obtain ⟨hupd, hhist, -, -, -, -⟩ := stateAfter_spec m k st h
  have hsum : st.history.sum = spent m k := by rw [hhist]; rfl
  have hlen : st.history.length = k := by rw [hhist]; simp
  rw [stopNow, hsum, hlen, hupd]
  simp [stopAfter]

theorem TUStateNmsId {A P : Type} (st : TUState A P) (x : ℕ) (h : st.n_ms = x) :
    ({ st with n_ms := x } : TUState A P) = st := by
  rw [← h]

theorem enum_drop_cons {α : Type} (l : List α) (j : ℕ) (dflt : α) (h : j < l.length) :
    l.enum.drop j = (j, l.getD j dflt) :: l.enum.drop (j+1) := by
  have h2 : j < l.enum.length := by rw [List.enum_length]; exact h
  rw [List.drop_eq_getElem_cons h2, List.getElem_enum, List.getD_eq_getElem _ _ h]

theorem stateAfter_nms_mul {A P : Type} (m : TUModel A P) (hn : 0 < m.configs.length)
    (q : ℕ) (st : TUState A P) (h : stateAfter m (q * m.configs.length) = some st) :
    st.n_ms = q := by
  cases q with
  | zero =>
    rw [Nat.zero_mul, stateAfter, Option.some_inj] at h
    rw [← h]; rfl
  | succ q' =>
    have he : (q'+1) * m.configs.length
        = (q' * m.configs.length + m.configs.length - 1) + 1 := by
      rw [Nat.succ_mul]; omega
    rw [he] at h
    obtain ⟨h1, -⟩ := stateAfter_nms m _ st h
    rw [h1]
    have h2 : q' * m.configs.length + m.configs.length - 1
        = (m.configs.length - 1) + q' * m.configs.length := by omega
    rw [h2, Nat.add_mul_div_right _ _ hn, Nat.div_eq_of_lt (by omega), Nat.zero_add]

theorem stateAfter_succ_run {A P : Type} (m : TUModel A P) (hn : 0 < m.configs.length)
    (q j : ℕ) (hj : j < m.configs.length) (st0 : TUState A P)
    (h : stateAfter m (q * m.configs.length + j) = some st0) :
    stateAfter m (q * m.configs.length + j + 1) =
      runBody m j (m.configs.getD j none)
        { st0 with n_cfg := j, n_ms := q + 1 } := by
  have hmod : (q * m.configs.length + j) % m.configs.length = j := by
    rw [Nat.add_comm, Nat.add_mul_mod_self_right, Nat.mod_eq_of_lt hj]
  have hdiv : (q * m.configs.length + j) / m.configs.length = q := by
    rw [Nat.add_comm, Nat.add_mul_div_right _ _ hn, Nat.div_eq_of_lt hj, Nat.zero_add]
  rw [stateAfter, h, Option.some_bind, hmod, hdiv]

theorem innerLoop_noStop {A P : Type} [Inhabited A] (m : TUModel A P)
    (hn : 0 < m.configs.length) (q : ℕ) :
    ∀ d j, j + d = m.configs.length →
    ∀ st0, stateAfter m (q * m.configs.length + j) = some st0 →
    (∀ t, q * m.configs.length + j < t → t ≤ (q+1) * m.configs.length → ¬ stopAfter m t) →
    innerLoop m (m.configs.enum.drop j) { st0 with n_ms := q + 1 } =
      (stateAfter m ((q+1) * m.configs.length)).map (fun s => (s, true)) := by
  intro d
  induction d with
  | zero =>
    intro j hj st0 hst0 hns
    have hjn : j = m.configs.length := by omega
    subst hjn
    have hdrop : m.configs.enum.drop m.configs.length = [] := by
      rw [← List.enum_length]; exact List.drop_length _
    have hidx : (q+1) * m.configs.length = q * m.configs.length + m.configs.length := by
      rw [Nat.succ_mul]
    have hnms : st0.n_ms = q + 1 := by
      have := stateAfter_nms_mul m hn (q+1) st0 (by rw [hidx]; exact hst0)
      exact this
    rw [hdrop, innerLoop, hidx, hst0, TUStateNmsId st0 (q+1) hnms]
    rfl
  | succ d ihd =>
    intro j hj st0 hst0 hns
    have hjlt : j < m.configs.length := by omega
    rw [enum_drop_cons m.configs j none hjlt, innerLoop]
    dsimp only
    have hbody : runBody m j (m.configs.getD j none)
        { st0 with n_ms := q + 1, n_cfg := j } =
        stateAfter m (q * m.configs.length + j + 1) :=
      (stateAfter_succ_run m hn q j hjlt st0 hst0).symm
    rw [hbody]
    cases hS : stateAfter m (q * m.configs.length + j + 1) with
    | none =>
      have : stateAfter m ((q+1) * m.configs.length) = none := by
        apply stateAfter_none_mono m _ hS
        rw [Nat.succ_mul]; omega
      rw [this]
      rfl
    | some st1 =>
      have hnostop : ¬ stopAfter m (q * m.configs.length + j + 1) := by
        apply hns _ (by omega)
        rw [Nat.succ_mul]; omega
      have hsnf : stopNow m st1 = false := by
        rcases Bool.eq_false_or_eq_true (stopNow m st1) with hb | hb
        · exact absurd ((stopNow_stateAfter m _ st1 hS).mp hb) hnostop
        · exact hb
      have hnms1 : st1.n_ms = q + 1 := by
        obtain ⟨h1, -⟩ := stateAfter_nms m _ st1 hS
        rw [h1]
        have hmod : (q * m.configs.length + j) / m.configs.length = q := by
          rw [Nat.add_comm, Nat.add_mul_div_right _ _ hn, Nat.div_eq_of_lt hjlt, Nat.zero_add]
        rw [hmod]
      have hrec := ihd (j+1) (by omega) st1 (by rw [← Nat.add_assoc]; exact hS)
        (by intro t ht1 ht2; exact hns t (by omega) ht2)
      rw [TUStateNmsId st1 (q+1) hnms1] at hrec
      simp only [hsnf, if_false]
      exact hrec

theorem innerLoop_stop {A P : Type} [Inhabited A] (m : TUModel A P)
    (hn : 0 < m.configs.length) (q N : ℕ) (hstop : stopAfter m N) :
    ∀ d j, j + d = m.configs.length →
    q * m.configs.length + j < N → N ≤ (q+1) * m.configs.length →
    (∀ t, q * m.configs.length + j < t → t < N → ¬ stopAfter m t) →
    ∀ st0, stateAfter m (q * m.configs.length + j) = some st0 →
    innerLoop m (m.configs.enum.drop j) { st0 with n_ms := q + 1 } =
      (stateAfter m N).map (fun s => (s, false)) := by
  intro d
  induction d with
  | zero =>
    intro j hj hlow hhigh hns st0 hst0
    exfalso
    have hjn : j = m.configs.length := by omega
    subst hjn
    rw [Nat.succ_mul] at hhigh
    omega
  | succ d ihd =>
    intro j hj hlow hhigh hns st0 hst0
    have hjlt : j < m.configs.length := by omega
    rw [enum_drop_cons m.configs j none hjlt, innerLoop]
    dsimp only
    have hbody : runBody m j (m.configs.getD j none)
        { st0 with n_ms := q + 1, n_cfg := j } =
        stateAfter m (q * m.configs.length + j + 1) :=
      (stateAfter_succ_run m hn q j hjlt st0 hst0).symm
    rw [hbody]
    cases hS : stateAfter m (q * m.configs.length + j + 1) with
    | none =>
      have : stateAfter m N = none := by
        apply stateAfter_none_mono m _ hS
        omega
      rw [this]
      rfl
    | some st1 =>
      rcases Nat.lt_or_ge (q * m.configs.length + j + 1) N with hcase | hcase
      · have hnostop : ¬ stopAfter m (q * m.configs.length + j + 1) :=
          hns _ (by omega) hcase
        have hsnf : stopNow m st1 = false := by
          rcases Bool.eq_false_or_eq_true (stopNow m st1) with hb | hb
          · exact absurd ((stopNow_stateAfter m _ st1 hS).mp hb) hnostop
          · exact hb
        have hnms1 : st1.n_ms = q + 1 := by
          obtain ⟨h1, -⟩ := stateAfter_nms m _ st1 hS
          rw [h1]
          have hmod : (q * m.configs.length + j) / m.configs.length = q := by
            rw [Nat.add_comm, Nat.add_mul_div_right _ _ hn, Nat.div_eq_of_lt hjlt,
              Nat.zero_add]
          rw [hmod]
        have hrec := ihd (j+1) (by omega) (by omega) hhigh
          (by intro t ht1 ht2; exact hns t (by omega) ht2) st1
          (by rw [← Nat.add_assoc]; exact hS)
        rw [TUStateNmsId st1 (q+1) hnms1] at hrec
        simp only [hsnf, if_false]
        exact hrec
      · have hNe : N = q * m.configs.length + j + 1 := by omega
        have hsnt : stopNow m st1 = true :=
          (stopNow_stateAfter m _ st1 hS).mpr (hNe ▸ hstop)
        rw [hNe, hS]
        simp only [hsnt, if_true]
        rfl

theorem outerLoop_spec {A P : Type} [Inhabited A] (m : TUModel A P)
    (hn : 0 < m.configs.length) :
    ∀ (fuel q : ℕ) (st0 : TUState A P),
    stateAfter m (q * m.configs.length) = some st0 →
    (∀ t, 0 < t → t ≤ q * m.configs.length → ¬ stopAfter m t) →
    ∀ stF, outerLoop m fuel st0 = LoopRes.ok stF →
    ∃ N, q * m.configs.length < N ∧ stopAfter m N ∧
      (∀ t, q * m.configs.length < t → t < N → ¬ stopAfter m t) ∧
      stateAfter m N = some stF := by
  intro fuel
  induction fuel with
  | zero =>
    intro q st0 h1 h2 stF hF
    rw [outerLoop] at hF
    exact absurd hF (by simp)
  | succ fuel ih =>
    intro q st0 h1 h2 stF hF
    rw [outerLoop] at hF
    have hnms : st0.n_ms = q := stateAfter_nms_mul m hn q st0 h1
    rw [hnms] at hF
    have h10 : stateAfter m (q * m.configs.length + 0) = some st0 := by simpa using h1
    by_cases hex : ∃ t, q * m.configs.length < t ∧ t ≤ (q+1) * m.configs.length ∧
        stopAfter m t
    · obtain ⟨hN1, hN2, hN3⟩ := Nat.find_spec hex
      have hmin : ∀ t, q * m.configs.length < t → t < Nat.find hex → ¬ stopAfter m t := by
        intro t ht1 ht2 hst
        exact Nat.find_min hex ht2 ⟨ht1, by omega, hst⟩
      have hinner := innerLoop_stop m hn q (Nat.find hex) hN3 m.configs.length 0
        (by omega) (by omega) hN2 (by intro t ht1 ht2; exact hmin t (by omega) ht2) st0 h10
      rw [List.drop_zero] at hinner
      rw [hinner] at hF
      cases hSN : stateAfter m (Nat.find hex) with
      | none => rw [hSN] at hF; exact absurd hF (by simp)
      | some sN =>
        rw [hSN] at hF
        simp only [Option.map_some'] at hF
        have : sN = stF := by
          cases hF
          rfl
        subst this
        exact ⟨Nat.find hex, by omega, hN3, hmin, hSN⟩
    · push_neg at hex
      have hinner := innerLoop_noStop m hn q m.configs.length 0 (by omega) st0 h10
        (by intro t ht1 ht2; exact hex t (by omega) ht2)
      rw [List.drop_zero] at hinner
      rw [hinner] at hF
      cases hS1 : stateAfter m ((q+1) * m.configs.length) with
      | none => rw [hS1] at hF; exact absurd hF (by simp)
      | some st1 =>
        rw [hS1] at hF
        simp only [Option.map_some'] at hF
        have h2' : ∀ t, 0 < t → t ≤ (q+1) * m.configs.length → ¬ stopAfter m t := by
          intro t ht1 ht2
          rcases Nat.lt_or_ge (q * m.configs.length) t with hc | hc
          · exact hex t hc ht2
          · exact h2 t ht1 hc
        obtain ⟨N, hgt, hstop, hmin, hSA⟩ := ih (q+1) st1 hS1 h2' stF hF
        refine ⟨N, ?_, hstop, ?_, hSA⟩
        · have : q * m.configs.length < (q+1) * m.configs.length := by
            rw [Nat.succ_mul]; omega
          omega
        · intro t ht1 ht2
          rcases Nat.lt_or_ge ((q+1) * m.configs.length) t with hc | hc
          · exact hmin t hc ht2
          · exact hex t ht1 hc

theorem scheduler_master {A P : Type} [Inhabited A] (m : TUModel A P)
    (hn : 0 < m.configs.length) (fuel : ℕ) (stF : TUState A P)
    (h : outerLoop m fuel (initState m) = LoopRes.ok stF) :
    ∃ N, 0 < N ∧ stopAfter m N ∧ (∀ t, 0 < t → t < N → ¬ stopAfter m t) ∧
      stateAfter m N = some stF := by
  have h0 : stateAfter m (0 * m.configs.length) = some (initState m) := by
    rw [Nat.zero_mul]; rfl
  obtain ⟨N, h1, h2, h3, h4⟩ := outerLoop_spec m hn fuel 0 (initState m) h0
    (by intro t ht1 ht2; omega) stF h
  exact ⟨N, by omega, h2, by intro t ht1 ht2; exact h3 t (by omega) ht2, h4⟩

theorem final_groups {A P : Type} [Inhabited A] (m : TUModel A P) (N : ℕ)
    (stF : TUState A P) (h : stateAfter m N = some stF) :
    ∀ g, g < m.configs.length → stF.amls.getD g [] =
      ((List.range N).filter (fun i => i % m.configs.length == g)).map
        (fun i => (⟨totAutoAt m i⟩ : MLPipeSingle A)) := by
  intro g hg
  obtain ⟨-, -, -, -, hamls, -⟩ := stateAfter_spec m N stF h
  rw [hamls, idealAmls, List.getD_eq_getElem _ _ (by simpa using hg),
    List.getElem_map, List.getElem_range]

theorem group_filter_nonempty_iff (n N g : ℕ) (hg : g < n) :
    ((List.range N).filter (fun i => i % n == g)) ≠ [] ↔ g < N := by
  constructor
  · intro h
    by_contra hgN
    push_neg at hgN
    apply h
    rw [List.filter_eq_nil_iff]
    intro i hi
    rw [List.mem_range] at hi
    have hin : i % n = i := Nat.mod_eq_of_lt (by omega)
    have hne : i ≠ g := by omega
    simp [hin, hne]
  · intro h
    apply List.ne_nil_of_mem (a := g)
    rw [List.mem_filter]
    exact ⟨List.mem_range.mpr h, by simp [Nat.mod_eq_of_lt hg]⟩

/-- **C1.**  The stop condition of `fit_predict`'s scheduling loop is
evaluated exactly once after every run and never before the very first run:
whenever the `while` loop terminates normally, the number `N` of recorded
runs is at least 1, the stop condition (remaining budget strictly below the
arithmetic mean of all recorded durations, or the global run counter at least
`max_runs_per_config * len(configs_list)`) holds after run `N` and fails
after each of runs `1 .. N-1` — the loop reaches its terminal state if and
only if the condition holds.  On the transition the inner per-configuration
iteration is broken out of immediately: the final `n_cfg` is `(N-1) % n`, and
group `g` holds exactly the runs `i < N` with `i % n = g`, so configurations
later in the final pass are not attempted. -/
theorem fitPredict_stop_characterization {A P : Type} [Inhabited A] (m : TUModel A P)
    (hn : 0 < m.configs.length) (fuel : ℕ) (stF : TUState A P)
    (h : outerLoop m fuel (initState m) = LoopRes.ok stF) :
    ∃ N, 0 < N ∧ stF.history.length = N ∧ stF.upd_state_val = N ∧
      stopAfter m N ∧ (∀ t, 0 < t → t < N → ¬ stopAfter m t) ∧
      stF.n_cfg = (N - 1) % m.configs.length ∧
      (∀ g, g < m.configs.length →
        (stF.amls.getD g []).length =
          ((List.range N).filter (fun i => i % m.configs.length == g)).length) := by
  obtain ⟨N, h1, h2, h3, h4⟩ := scheduler_master m hn fuel stF h
  obtain ⟨hupd, hhist, -, -, -, -⟩ := stateAfter_spec m N stF h4
  refine ⟨N, h1, ?_, hupd, h2, h3, ?_, ?_⟩
  · rw [hhist]; simp
  · obtain ⟨k, rfl⟩ := Nat.exists_eq_add_of_lt h1
    rw [Nat.zero_add] at *
    obtain ⟨-, hcfg⟩ := stateAfter_nms m k stF h4
    simpa using hcfg
  · intro g hg
    rw [final_groups m N stF h4 g hg, List.length_map]

/-- Witness for C1 at the concrete model `mW1`: two configurations,
`max_runs_per_config = 1`, the loop stops by the counter after run 2. -/
theorem fitPredict_stop_characterization_witness :
    ∃ N, 0 < N ∧ stW1.history.length = N ∧ stW1.upd_state_val = N ∧
      stopAfter mW1 N ∧ (∀ t, 0 < t → t < N → ¬ stopAfter mW1 t) ∧
      stW1.n_cfg = (N - 1) % mW1.configs.length ∧
      (∀ g, g < mW1.configs.length →
        (stW1.amls.getD g []).length =
          ((List.range N).filter (fun i => i % mW1.configs.length == g)).length) :=
  fitPredict_stop_characterization mW1 (by decide) 3 stW1 rfl

/-- **C2 counterexample.**  `__init__` substitutes the single default entry
only for `None`: an explicitly empty configuration list is kept empty, not
replaced by the one-element default. -/
theorem emptyConfigs_counterexample :
    initConfigsList (some []) = [] ∧ ¬ initConfigsList (some []) = [none] :=
  ⟨rfl, by decide⟩

/-- **C2 amended.**  Only a missing (`None`) configuration list is replaced
by a single default entry; any supplied list, the empty one included, is kept
as given, and with an empty list `fit_predict`'s scheduling loop never
terminates (each pass performs no run and never sets the stop flag). -/
theorem emptyConfigs_amended :
    initConfigsList none = [none] ∧ (∀ l, initConfigsList (some l) = l) ∧
    (∀ (A P : Type) (m : TUModel A P), m.configs = [] →
      ∀ fuel st, outerLoop m fuel st = LoopRes.fuelOut) := by
  refine ⟨rfl, fun _ => rfl, ?_⟩
  intro A P m hc fuel
  induction fuel with
  | zero => intro st; rfl
  | succ fuel ih =>
    intro st
    rw [outerLoop, hc, List.enum_nil, innerLoop]
    exact ih _

/-- Witness for C2's amended statement: the concrete empty-configuration
model loops forever (fuel is always exhausted). -/
theorem emptyConfigs_amended_witness :
    outerLoop mC2 5 (initState mC2) = LoopRes.fuelOut :=
  emptyConfigs_amended.2.2 Unit Unit mC2 rfl 5 (initState mC2)

/-- **C4 counterexample.**  With budget 100 and a 200-second first run, the
stop condition fires right after configuration 0's run, and configuration 1
is never attempted: its group stays empty, although the claim promises at
least one recorded run per configuration of the first pass regardless of an
earlier configuration's overrun. -/
theorem firstRun_counterexample :
    outerLoop mC4 9 (initState mC4) = LoopRes.ok stC4 ∧
    mC4.configs.length = 2 ∧ stC4.history.length = 1 ∧
    stC4.amls.getD 1 [] = [] :=
  ⟨rfl, rfl, rfl, rfl⟩

/-- **C4 amended.**  No budget check precedes a run: the schedule always
records at least one run (the very first run starts regardless of the
budget), and a configuration receives its first-pass run precisely when no
earlier run triggered the stop condition; a configuration placed after a
stop-triggering run is never attempted. -/
theorem firstRun_amended {A P : Type} [Inhabited A] (m : TUModel A P)
    (hn : 0 < m.configs.length) (fuel : ℕ) (stF : TUState A P)
    (h : outerLoop m fuel (initState m) = LoopRes.ok stF) :
    1 ≤ stF.history.length ∧
    (∀ g, g < m.configs.length →
      (stF.amls.getD g [] ≠ [] ↔ ∀ t, 0 < t → t ≤ g → ¬ stopAfter m t)) := by
  obtain ⟨N, h1, h2, h3, h4⟩ := scheduler_master m hn fuel stF h
  obtain ⟨-, hhist, -, -, -, -⟩ := stateAfter_spec m N stF h4
  constructor
  · rw [hhist]; simpa using h1
  · intro g hg
    rw [final_groups m N stF h4 g hg]
    have hiff : g < N ↔ (∀ t, 0 < t → t ≤ g → ¬ stopAfter m t) := by
      constructor
      · intro hlt t ht1 ht2; exact h3 t ht1 (by omega)
      · intro hall
        by_contra hge
        push_neg at hge
        exact hall N h1 (by omega) h2
    constructor
    · intro hne
      refine hiff.mp ((group_filter_nonempty_iff _ _ _ hg).mp ?_)
      intro hf
      apply hne
      rw [hf]
      rfl
    · intro hall hmapnil
      exact (group_filter_nonempty_iff m.configs.length N g hg).mpr (hiff.mpr hall)
        (by simpa using hmapnil)

/-- Witness for C4's amended statement at the concrete model `mW1`. -/
theorem firstRun_amended_witness :
    1 ≤ stW1.history.length ∧
    (∀ g, g < mW1.configs.length →
      (stW1.amls.getD g [] ≠ [] ↔ ∀ t, 0 < t → t ≤ g → ¬ stopAfter mW1 t)) :=
  firstRun_amended mW1 (by decide) 3 stW1 rfl

theorem groupsPop {α : Type} (n k : ℕ) (hn : 0 < n) (f : ℕ → α) :
    ((List.range n).map
        (fun g => ((List.range (k+1)).filter (fun i => i % n == g)).map f)).set (k % n)
      ((((List.range n).map
          (fun g => ((List.range (k+1)).filter (fun i => i % n == g)).map f)).getD
            (k % n) []).dropLast)
    = (List.range n).map (fun g => ((List.range k).filter (fun i => i % n == g)).map f) := by
  have hmod : k % n < n := Nat.mod_lt _ hn
  apply List.ext_getElem
  · simp
  · intro i h1 h2
    have hi : i < n := by simpa using h2
    simp only [List.getElem_set, List.getElem_map, List.getElem_range]
    rw [List.getD_eq_getElem _ _ (by simpa using hmod), List.getElem_map, List.getElem_range]
    by_cases hk : k % n = i
    · rw [if_pos hk, List.range_succ, List.filter_append, List.map_append]
      simp [List.filter_singleton, hk, List.dropLast_concat]
    · rw [if_neg hk, List.range_succ, List.filter_append]
      simp [List.filter_singleton, hk]

/-- **C5 counterexample.**  In `mC5` the recorded run history has length 3
and the drop-last flag is enabled, yet no run is removed: the code's guard is
`n_ms > 1` (more than one multistart pass), not a history of length greater
than 1, and here all three runs happened in the first pass. -/
theorem dropLast_counterexample :
    outerLoop mC5 9 (initState mC5) = LoopRes.ok stC5 ∧
    mC5.dropLast = true ∧ stC5.history.length = 3 ∧ stC5.n_ms = 1 ∧
    (postProcess mC5 stC5).amls = stC5.amls ∧
    ((postProcess mC5 stC5).amls.map List.length).sum = 3 :=
  ⟨rfl, rfl, rfl, rfl, rfl, rfl⟩

theorem postProcess_groups {A P : Type} [Inhabited A] (m : TUModel A P)
    (hn : 0 < m.configs.length) (fuel : ℕ) (stF : TUState A P)
    (h : outerLoop m fuel (initState m) = LoopRes.ok stF) :
    (1 < stF.n_ms ↔ m.configs.length < stF.history.length) ∧
    (postProcess m stF).amls =
      (idealAmls m (if m.dropLast = true ∧ m.configs.length < stF.history.length
          then stF.history.length - 1 else stF.history.length)).filter
        (fun x => !x.isEmpty) ∧
    (postProcess m stF).aml_preds =
      (idealPreds m (if m.dropLast = true ∧ m.configs.length < stF.history.length
          then stF.history.length - 1 else stF.history.length)).filter
        (fun x => !x.isEmpty) := by
  obtain ⟨N, h1, h2, h3, h4⟩ := scheduler_master m hn fuel stF h
  obtain ⟨-, hhist, -, -, hamls, hpreds⟩ := stateAfter_spec m N stF h4
  have hlen : stF.history.length = N := by rw [hhist]; simp
  obtain ⟨k, rfl⟩ := Nat.exists_eq_add_of_lt h1
  rw [Nat.zero_add] at *
  obtain ⟨hnms, hncfg⟩ := stateAfter_nms m k stF h4
  have hbridge : 1 < stF.n_ms ↔ m.configs.length < k + 1 := by
    rw [hnms]
    have hdp : 0 < k / m.configs.length ↔ m.configs.length ≤ k :=
      Nat.div_pos_iff (Nat.pos_iff_ne_zero.mp hn)
    omega
  refine ⟨by rw [hlen]; exact hbridge, ?_, ?_⟩
  · rw [postProcess, hlen]
    by_cases hc : m.dropLast = true ∧ m.configs.length < k + 1
    · rw [if_pos (⟨hbridge.mpr hc.2, hc.1⟩ : 1 < stF.n_ms ∧ m.dropLast = true), if_pos hc]
      dsimp only
      rw [hamls, hncfg, Nat.add_sub_cancel]
      simp only [idealAmls]
      rw [groupsPop m.configs.length k hn (fun i => (⟨totAutoAt m i⟩ : MLPipeSingle A))]
    · rw [if_neg (fun hcon => hc ⟨hcon.2, hbridge.mp hcon.1⟩), if_neg hc, hamls]
  · rw [postProcess, hlen]
    by_cases hc : m.dropLast = true ∧ m.configs.length < k + 1
    · rw [if_pos (⟨hbridge.mpr hc.2, hc.1⟩ : 1 < stF.n_ms ∧ m.dropLast = true), if_pos hc]
      dsimp only
      rw [hpreds, hncfg, Nat.add_sub_cancel]
      simp only [idealPreds]
      rw [groupsPop m.configs.length k hn (fun i => m.fitp (totAutoAt m i))]
    · rw [if_neg (fun hcon => hc ⟨hcon.2, hbridge.mp hcon.1⟩), if_neg hc, hpreds]

/-- **C5 amended.**  Drop-last removes a run if and only if more than one
multistart pass began, which happens exactly when the number of recorded runs
exceeds the number of configurations (for a single configuration this is a
history of length greater than 1, as the claim states).  When it applies, it
removes exactly the most recently appended run — the run groups become those
of the first `N-1` runs, so only the group active at the stop shrinks, by one
entry.  With the flag disabled all recorded runs are kept.  Afterwards every
empty group is pruned from both lists. -/
theorem dropLast_amended {A P : Type} [Inhabited A] (m : TUModel A P)
    (hn : 0 < m.configs.length) (fuel : ℕ) (stF : TUState A P)
    (h : outerLoop m fuel (initState m) = LoopRes.ok stF) :
    (1 < stF.n_ms ↔ m.configs.length < stF.history.length) ∧
    (postProcess m stF).amls =
      (idealAmls m (if m.dropLast = true ∧ m.configs.length < stF.history.length
          then stF.history.length - 1 else stF.history.length)).filter
        (fun x => !x.isEmpty) ∧
    (postProcess m stF).aml_preds =
      (idealPreds m (if m.dropLast = true ∧ m.configs.length < stF.history.length
          then stF.history.length - 1 else stF.history.length)).filter
        (fun x => !x.isEmpty) :=
  postProcess_groups m hn fuel stF h

/-- Witness for C5's amended statement at the concrete model `mW5`: one
configuration, three passes, drop-last removes exactly the last run. -/
theorem dropLast_amended_witness :
    (1 < stW5.n_ms ↔ mW5.configs.length < stW5.history.length) ∧
    (postProcess mW5 stW5).amls =
      (idealAmls mW5 (if mW5.dropLast = true ∧ mW5.configs.length < stW5.history.length
          then stW5.history.length - 1 else stW5.history.length)).filter
        (fun x => !x.isEmpty) ∧
    (postProcess mW5 stW5).aml_preds =
      (idealPreds mW5 (if mW5.dropLast = true ∧ mW5.configs.length < stW5.history.length
          then stW5.history.length - 1 else stW5.history.length)).filter
        (fun x => !x.isEmpty) :=
  dropLast_amended mW5 (by decide) 9 stW5 rfl

theorem runBody_frame {A P : Type} (m : TUModel A P) (j : ℕ) (c : Option String)
    (st st1 : TUState A P) (h : runBody m j c st = some st1) :
    st1.rsk = st.rsk ∧ st1.kw = st.kw := by
  rw [runBody] at h
  cases hc : combineKwargs (getUpdStates st.rsk (st.upd_state_val : Int)).toJ st.kw with
  | none => rw [hc] at h; simp at h
  | some rskw =>
    rw [hc] at h
    simp only [Option.some_inj] at h
    subst h
    exact ⟨rfl, rfl⟩

theorem innerLoop_frame {A P : Type} (m : TUModel A P) :
    ∀ (l : List (ℕ × Option String)) (st st1 : TUState A P) (b : Bool),
    innerLoop m l st = some (st1, b) → st1.rsk = st.rsk ∧ st1.kw = st.kw := by
  intro l
  induction l with
  | nil =>
    intro st st1 b h
    rw [innerLoop, Option.some_inj] at h
    injection h with h1 h2
    rw [← h1]
    exact ⟨rfl, rfl⟩
  | cons jc rest ih =>
    obtain ⟨j, c⟩ := jc
    intro st st1 b h
    rw [innerLoop] at h
    cases hr : runBody m j c { st with n_cfg := j } with
    | none => rw [hr] at h; simp at h
    | some stx =>
      rw [hr] at h
      dsimp only at h
      obtain ⟨hx1, hx2⟩ := runBody_frame m j c _ stx hr
      by_cases hs : stopNow m stx = true
      · rw [if_pos hs, Option.some_inj] at h
        injection h with h1 h2
        rw [← h1]
        exact ⟨hx1, hx2⟩
      · rw [if_neg hs] at h
        obtain ⟨h1, h2⟩ := ih stx st1 b h
        exact ⟨h1.trans hx1, h2.trans hx2⟩

theorem outerLoop_frame {A P : Type} (m : TUModel A P) :
    ∀ (fuel : ℕ) (st st1 : TUState A P),
    outerLoop m fuel st = LoopRes.ok st1 → st1.rsk = st.rsk ∧ st1.kw = st.kw := by
  intro fuel
  induction fuel with
  | zero => intro st st1 h; exact absurd h (by rw [outerLoop]; simp)
  | succ fuel ih =>
    intro st st1 h
    rw [outerLoop] at h
    cases hi : innerLoop m m.configs.enum { st with n_ms := st.n_ms + 1 } with
    | none => rw [hi] at h; exact absurd h (by simp)
    | some stb =>
      obtain ⟨stx, b⟩ := stb
      rw [hi] at h
      obtain ⟨h1, h2⟩ := innerLoop_frame m _ _ stx b hi
      cases b with
      | true =>
        obtain ⟨h3, h4⟩ := ih stx st1 h
        exact ⟨h3.trans h1, h4.trans h2⟩
      | false =>
        have : stx = st1 := by cases h; rfl
        subst this
        exact ⟨h1, h2⟩

theorem stateAfter_frame {A P : Type} (m : TUModel A P) :
    ∀ (k : ℕ) (st : TUState A P), stateAfter m k = some st →
      st.rsk = m.randomStateKeys ∧ st.kw = m.kwargs := by
  intro k
  induction k with
  | zero =>
    intro st h
    rw [stateAfter, Option.some_inj] at h
    rw [← h]
    exact ⟨rfl, rfl⟩
  | succ k ih =>
    intro st h
    rw [stateAfter] at h
    cases hk : stateAfter m k with
    | none => rw [hk] at h; simp at h
    | some st0 =>
      rw [hk] at h
      simp only [Option.some_bind] at h
      obtain ⟨h1, h2⟩ := runBody_frame m _ _ _ st h
      obtain ⟨h3, h4⟩ := ih st0 hk
      exact ⟨h1.trans h3, h2.trans h4⟩

/-- **C9.**  `fit_predict` never mutates the stored seed map or the stored
kwargs: after every run of the scheduling loop the two stored fields are the
ones the orchestrator started with (each generation of overrides is a freshly
built structure derived from the original map, and the merge works on a copy
of the kwargs), and the values the call leaves in the object equal the
original ones. -/
theorem fitPredict_frame {A P : Type} (m : TUModel A P) (fuel : ℕ) (vp : P)
    (fit : TUFit A P) (rskOut : SDict) (kwOut : JDict)
    (h : tuFitPredict m fuel = some (vp, fit, rskOut, kwOut)) :
    (∀ k st, stateAfter m k = some st →
      st.rsk = m.randomStateKeys ∧ st.kw = m.kwargs) ∧
    rskOut = m.randomStateKeys ∧ kwOut = m.kwargs := by
  refine ⟨stateAfter_frame m, ?_⟩
  rw [tuFitPredict] at h
  cases ho : outerLoop m fuel (initState m) with
  | fuelOut => rw [ho] at h; simp at h
  | raised => rw [ho] at h; simp at h
  | ok st =>
    rw [ho] at h
    simp only [Option.some_inj, Prod.mk.injEq] at h
    obtain ⟨-, -, h3, h4⟩ := h
    obtain ⟨h1, h2⟩ := outerLoop_frame m fuel (initState m) st ho
    rw [← h3, ← h4, h1, h2]
    exact ⟨rfl, rfl⟩

/-- Witness for C9 at the concrete model `mW1`. -/
theorem fitPredict_frame_witness :
    (∀ k st, stateAfter mW1 k = some st →
      st.rsk = mW1.randomStateKeys ∧ st.kw = mW1.kwargs) ∧
    fitW1.2.2.1 = mW1.randomStateKeys ∧ fitW1.2.2.2 = mW1.kwargs :=
  fitPredict_frame mW1 3 fitW1.1 fitW1.2.1 fitW1.2.2.1 fitW1.2.2.2 rfl

theorem idealPreds_eq_map {A P : Type} [Inhabited A] (m : TUModel A P) (k : ℕ) :
    idealPreds m k =
      (idealAmls m k).map (List.map (fun w => m.fitp w.automl)) := by
  simp [idealAmls, idealPreds, List.map_map, Function.comp]

theorem isEmpty_listMap {α β : Type} (f : α → β) (x : List α) :
    (x.map f).isEmpty = x.isEmpty := by
  cases x <;> rfl

theorem filter_isEmpty_listMap {α β : Type} (f : α → β) (l : List (List α)) :
    ((l.map (List.map f)).filter (fun x => !x.isEmpty)) =
      (l.filter (fun x => !x.isEmpty)).map (List.map f) := by
  have hpred : ((fun x => !x.isEmpty) ∘ List.map f) = (fun x : List α => !x.isEmpty) := by
    funext x
    simp [Function.comp, isEmpty_listMap]
  rw [List.filter_map, hpred]

/-- **C10.**  The per-configuration pipeline and prediction lists stay
index-aligned throughout `fit_predict`: after every run of the loop the
prediction groups are exactly the image of the pipeline groups under "this
run's prediction" (both grow by one entry from the same run), drop-last pops
both lists of the same group, and pruning removes corresponding groups from
both — so each inner blend receives predictions and wrapped pipelines of
equal length in identical run order. -/
theorem lists_aligned {A P : Type} [Inhabited A] (m : TUModel A P)
    (hn : 0 < m.configs.length) (fuel : ℕ) (stF : TUState A P)
    (h : outerLoop m fuel (initState m) = LoopRes.ok stF) :
    (∀ k st, stateAfter m k = some st →
      st.aml_preds = st.amls.map (List.map (fun w => m.fitp w.automl))) ∧
    (postProcess m stF).aml_preds =
      (postProcess m stF).amls.map (List.map (fun w => m.fitp w.automl)) ∧
    ∀ g, ((postProcess m stF).aml_preds.getD g []).length
        = ((postProcess m stF).amls.getD g []).length := by
  have hmid : ∀ k st, stateAfter m k = some st →
      st.aml_preds = st.amls.map (List.map (fun w => m.fitp w.automl)) := by
    intro k st hst
    obtain ⟨-, -, -, -, ha, hp⟩ := stateAfter_spec m k st hst
    rw [ha, hp, idealPreds_eq_map]
  obtain ⟨-, hA, hP⟩ := postProcess_groups m hn fuel stF h
  have hpost : (postProcess m stF).aml_preds =
      (postProcess m stF).amls.map (List.map (fun w => m.fitp w.automl)) := by
    rw [hA, hP, idealPreds_eq_map, filter_isEmpty_listMap]
  refine ⟨hmid, hpost, ?_⟩
  intro g
  rw [hpost]
  rcases Nat.lt_or_ge g (postProcess m stF).amls.length with hg | hg
  · rw [List.getD_eq_getElem _ _ (by simpa using hg), List.getD_eq_getElem _ _ hg,
      List.getElem_map, List.length_map]
  · rw [List.getD_eq_default _ _ (by simpa using hg), List.getD_eq_default _ _ hg]
    rfl

/-- Witness for C10 at the concrete model `mW1`. -/
theorem lists_aligned_witness :
    (∀ k st, stateAfter mW1 k = some st →
      st.aml_preds = st.amls.map (List.map (fun w => mW1.fitp w.automl))) ∧
    (postProcess mW1 stW1).aml_preds =
      (postProcess mW1 stW1).amls.map (List.map (fun w => mW1.fitp w.automl)) ∧
    ∀ g, ((postProcess mW1 stW1).aml_preds.getD g []).length
        = ((postProcess mW1 stW1).amls.getD g []).length :=
  lists_aligned mW1 (by decide) 3 stW1 rfl

theorem outerLoop_nil_configs {A P : Type} (m : TUModel A P) (hc : m.configs = []) :
    ∀ (fuel : ℕ) (st : TUState A P), outerLoop m fuel st = LoopRes.fuelOut := by
  intro fuel
  induction fuel with
  | zero => intro st; rfl
  | succ fuel ih =>
    intro st
    rw [outerLoop, hc, List.enum_nil, innerLoop]
    exact ih _

theorem headBlender_contract {P Pi : Type} (d : P) :
    BlenderContract (@headBlender P Pi d) := by
  intro π pipes
  rfl

theorem blendPhase_roundtrip {A P : Type} (m : TUModel A P) (prd : A → P)
    (hdet : ∀ a, prd a = m.fitp a) (hinner : BlenderContract m.innerBlend)
    (houter : BlenderContract m.outerBlend) (amls : List (List (MLPipeSingle A))) :
    tuPredict
      ⟨(blendPhase m (amls.map (List.map (fun w => m.fitp w.automl))) amls).2.1,
        (blendPhase m (amls.map (List.map (fun w => m.fitp w.automl))) amls).2.2⟩ prd
      = (blendPhase m (amls.map (List.map (fun w => m.fitp w.automl))) amls).1 := by
  have hzip : (amls.map (List.map (fun w => m.fitp w.automl))).zip amls
      = amls.map (fun x => (x.map (fun w => m.fitp w.automl), x)) := by
    have h := List.zip_map' (List.map (fun w => m.fitp w.automl)) id amls
    simpa using h
  rw [tuPredict, blendPhase, hzip]
  dsimp only
  rw [List.map_map, List.map_map, List.map_map, List.map_map]
  have hlist :
      amls.map (((fun x => x.1) ∘ (fun pp =>
          ((m.innerBlend.fitPredict pp.1 pp.2).1,
            MLPipeBlended.mk
              (((m.innerBlend.fitPredict pp.1 pp.2).2.1).map (fun x => x.automl))
              (m.innerBlend.fitPredict pp.1 pp.2).2.2))) ∘
          (fun x => (x.map (fun w => m.fitp w.automl), x)))
      = (amls.map (((fun x => x.2) ∘ (fun pp =>
          ((m.innerBlend.fitPredict pp.1 pp.2).1,
            MLPipeBlended.mk
              (((m.innerBlend.fitPredict pp.1 pp.2).2.1).map (fun x => x.automl))
              (m.innerBlend.fitPredict pp.1 pp.2).2.2))) ∘
          (fun x => (x.map (fun w => m.fitp w.automl), x)))).map
        (fun w => w.blender.predict (w.automls.map prd)) := by
    rw [List.map_map]
    apply List.map_eq_map_iff.mpr
    intro a ha
    dsimp only [Function.comp]
    rw [List.map_map]
    have hfn : (prd ∘ fun x : MLPipeSingle A => x.automl)
        = (fun w : MLPipeSingle A => m.fitp w.automl) := by
      funext w
      exact hdet w.automl
    rw [hfn]
    exact (hinner (fun w => m.fitp w.automl) a).symm
  rw [hlist]
  exact houter (fun w => w.blender.predict (w.automls.map prd)) _

/-- **C8.**  `predict` walks every retained outer wrapper, predicts with each
raw artifact, combines with the stored inner blend strategy's `predict`
(never `fit_predict`), and combines across wrappers with the fitted outer
blend strategy's `predict`.  With deterministic Trainable collaborators
(`predict` on the training data reproduces the training prediction) and
blend strategies satisfying the Blend Strategy contract, `predict` on the
data that produced the training prediction returns exactly the prediction
`fit_predict` returned. -/
theorem predict_roundtrip {A P : Type} [Inhabited A] (m : TUModel A P) (prd : A → P)
    (fuel : ℕ) (vp : P) (fit : TUFit A P) (rskOut : SDict) (kwOut : JDict)
    (h : tuFitPredict m fuel = some (vp, fit, rskOut, kwOut))
    (hdet : ∀ a, prd a = m.fitp a)
    (hinner : BlenderContract m.innerBlend)
    (houter : BlenderContract m.outerBlend) :
    tuPredict fit prd = vp := by
  rcases Nat.eq_zero_or_pos m.configs.length with hz | hn
  · exfalso
    have hc : m.configs = [] := List.length_eq_zero.mp hz
    rw [tuFitPredict, outerLoop_nil_configs m hc fuel] at h
    simp at h
  rw [tuFitPredict] at h
  cases ho : outerLoop m fuel (initState m) with
  | fuelOut => rw [ho] at h; simp at h
  | raised => rw [ho] at h; simp at h
  | ok st =>
    rw [ho] at h
    simp only [Option.some_inj, Prod.mk.injEq] at h
    obtain ⟨hvp, hfit, -, -⟩ := h
    obtain ⟨-, hA, hP⟩ := postProcess_groups m hn fuel st ho
    have halign : (postProcess m st).aml_preds =
        (postProcess m st).amls.map (List.map (fun w => m.fitp w.automl)) := by
      rw [hA, hP, idealPreds_eq_map, filter_isEmpty_listMap]
    rw [← hvp, ← hfit]
    rw [halign]
    exact blendPhase_roundtrip m prd hdet hinner houter (postProcess m st).amls

/-- Witness for C8 at the concrete model `mW8` with the head-taking blend
strategy on both levels. -/
theorem predict_roundtrip_witness :
    tuPredict fitW8.2.1 (fun a => a + 1) = fitW8.1 :=
  predict_roundtrip mW8 (fun a => a + 1) 3 fitW8.1 fitW8.2.1 fitW8.2.2.1 fitW8.2.2.2
    rfl (fun _ => rfl) (headBlender_contract 0) (headBlender_contract 0)

/-- **C6.**  `_get_upd_states` produces a structure of identical shape to the
base seed map, with every integer leaf equal to the base seed plus the
offset; hence two generations with distinct offsets `g1 ≠ g2` differ by
exactly `g1 - g2` at every leaf and never agree on any leaf. -/
theorem getUpdStates_generations (m : SDict) (g1 g2 : Int) (h : g1 ≠ g2) :
    ((getUpdStates m g1).sameShapeB m = true) ∧
    (∀ p n, m.leafAt p = some n → (getUpdStates m g1).leafAt p = some (n + g1)) ∧
    (∀ p n1 n2, (getUpdStates m g1).leafAt p = some n1 →
      (getUpdStates m g2).leafAt p = some n2 → n1 - n2 = g1 - g2 ∧ n1 ≠ n2) := by
  refine ⟨sameShapeB_getUpdStates m g1, ?_, ?_⟩
  · intro p n hp
    rw [leafAt_getUpdStates, hp]
    rfl
  · intro p n1 n2 h1 h2
    rw [leafAt_getUpdStates] at h1 h2
    cases hp : m.leafAt p with
    | none => rw [hp] at h1; exact absurd h1 (by simp)
    | some n =>
      rw [hp] at h1 h2
      simp only [Option.map_some'] at h1 h2
      injection h1 with h1'
      injection h2 with h2'
      omega

/-- Witness for C6 on the seed map `{"a": {"seed": 42}}` with offsets 1, 0. -/
theorem getUpdStates_generations_witness :
    (getUpdStates seedMapEx 1).sameShapeB seedMapEx = true ∧
    (getUpdStates seedMapEx 1).leafAt ["a", "seed"] = some 43 := by
  have h := getUpdStates_generations seedMapEx 1 0 (by decide)
  refine ⟨h.1, ?_⟩
  have h2 := h.2.1 ["a", "seed"] 42 (by decide)
  simpa using h2

theorem lookupV_consVJ (k0 : String) (v : JV) (r : JDict) (k : String) :
    (JDict.consV k0 v r).lookupV k = if k0 = k then some v else r.lookupV k := by
  cases v <;> rfl

theorem lookupV_eraseKey_ne (d : JDict) (k0 k : String) (h : k0 ≠ k) :
    (d.eraseKey k0).lookupV k = d.lookupV k := by
  induction d with
  | nil => rfl
  | consInt k' n r ih =>
    rcases eq_or_ne k' k0 with h1 | h1
    · subst h1; simp [JDict.eraseKey, JDict.lookupV, h, ih]
    · simp [JDict.eraseKey, JDict.lookupV, h1, ih]
  | consStr k' s r ih =>
    rcases eq_or_ne k' k0 with h1 | h1
    · subst h1; simp [JDict.eraseKey, JDict.lookupV, h, ih]
    · simp [JDict.eraseKey, JDict.lookupV, h1, ih]
  | consDict k' d' r ihd ih =>
    rcases eq_or_ne k' k0 with h1 | h1
    · subst h1; simp [JDict.eraseKey, JDict.lookupV, h, ih]
    · simp [JDict.eraseKey, JDict.lookupV, h1, ih]

theorem lookupV_eraseKey_self (d : JDict) (k : String) :
    (d.eraseKey k).lookupV k = none := by
  induction d with
  | nil => rfl
  | consInt k' n r ih =>
    rcases eq_or_ne k' k with h1 | h1
    · simp [JDict.eraseKey, h1, ih]
    · simp [JDict.eraseKey, JDict.lookupV, h1, ih]
  | consStr k' s r ih =>
    rcases eq_or_ne k' k with h1 | h1
    · simp [JDict.eraseKey, h1, ih]
    · simp [JDict.eraseKey, JDict.lookupV, h1, ih]
  | consDict k' d' r ihd ih =>
    rcases eq_or_ne k' k with h1 | h1
    · simp [JDict.eraseKey, h1, ih]
    · simp [JDict.eraseKey, JDict.lookupV, h1, ih]

theorem lookupV_append (x y : JDict) (k : String) :
    (x.append y).lookupV k = (x.lookupV k).or (y.lookupV k) := by
  induction x with
  | nil => simp [JDict.append, JDict.lookupV]
  | consInt k' n r ih =>
    by_cases h : k' = k <;> simp [JDict.append, JDict.lookupV, h, ih]
  | consStr k' s r ih =>
    by_cases h : k' = k <;> simp [JDict.append, JDict.lookupV, h, ih]
  | consDict k' d' r ihd ih =>
    by_cases h : k' = k <;> simp [JDict.append, JDict.lookupV, h, ih]

theorem lookupV_overrideVals (d1 d2 : JDict) (k : String) :
    (d1.overrideVals d2).lookupV k
      = (d1.lookupV k).map (fun v => (d2.lookupV k).getD v) := by
  induction d1 with
  | nil => rfl
  | consInt k' n r ih =>
    by_cases h : k' = k
    · subst h; simp [JDict.overrideVals, lookupV_consVJ, JDict.lookupV]
    · simp [JDict.overrideVals, lookupV_consVJ, JDict.lookupV, h, ih]
  | consStr k' s r ih =>
    by_cases h : k' = k
    · subst h; simp [JDict.overrideVals, lookupV_consVJ, JDict.lookupV]
    · simp [JDict.overrideVals, lookupV_consVJ, JDict.lookupV, h, ih]
  | consDict k' d' r ihd ih =>
    by_cases h : k' = k
    · subst h; simp [JDict.overrideVals, lookupV_consVJ, JDict.lookupV]
    · simp [JDict.overrideVals, lookupV_consVJ, JDict.lookupV, h, ih]

theorem lookupV_restOf (d2 d1 : JDict) (k : String) :
    (d2.restOf d1).lookupV k = if d1.hasKey k then none else d2.lookupV k := by
  induction d2 with
  | nil => simp [JDict.restOf, JDict.lookupV]
  | consInt k' n r ih =>
    by_cases h : k' = k
    · subst h
      by_cases hk : d1.hasKey k' = true <;>
        simp [JDict.restOf, hk, JDict.lookupV, ih]
    · by_cases hk : d1.hasKey k' = true <;>
        simp [JDict.restOf, hk, JDict.lookupV, h, ih]
  | consStr k' s r ih =>
    by_cases h : k' = k
    · subst h
      by_cases hk : d1.hasKey k' = true <;>
        simp [JDict.restOf, hk, JDict.lookupV, ih]
    · by_cases hk : d1.hasKey k' = true <;>
        simp [JDict.restOf, hk, JDict.lookupV, h, ih]
  | consDict k' d' r ihd ih =>
    by_cases h : k' = k
    · subst h
      by_cases hk : d1.hasKey k' = true <;>
        simp [JDict.restOf, hk, JDict.lookupV, ih]
    · by_cases hk : d1.hasKey k' = true <;>
        simp [JDict.restOf, hk, JDict.lookupV, h, ih]

theorem lookupV_unionRight (d1 d2 : JDict) (k : String) :
    (d1.unionRight d2).lookupV k = (d2.lookupV k).or (d1.lookupV k) := by
  rw [JDict.unionRight, lookupV_append, lookupV_overrideVals, lookupV_restOf]
  cases h1 : d1.lookupV k <;> cases h2 : d2.lookupV k <;>
    simp [JDict.hasKey, h1, h2]

theorem combineKwargs_spec :
    ∀ (rs kw rs' kw' : JDict), combineKwargs rs kw = some (rs', kw') →
      (∀ k, rs.lookupV k = none → rs'.lookupV k = none) ∧
      (∀ k v, rs.lookupV k = some v → kw.lookupV k = none → rs'.lookupV k = some v) ∧
      (∀ k d1 d2, rs.lookupV k = some (.dict d2) → kw.lookupV k = some (.dict d1) →
        rs'.lookupV k = some (.dict (d1.unionRight d2))) ∧
      (∀ k, kw'.lookupV k = if rs.hasKey k then none else kw.lookupV k) := by
  intro rs
  induction rs with
  | nil =>
    intro kw rs' kw' h
    rw [combineKwargs, Option.some_inj] at h
    injection h with h1 h2
    subst h1
    subst h2
    refine ⟨fun k _ => rfl, ?_, ?_, ?_⟩
    · intro k v hv
      exact absurd hv (by simp [JDict.lookupV])
    · intro k d1 d2 hv
      exact absurd hv (by simp [JDict.lookupV])
    · intro k
      simp [JDict.hasKey, JDict.lookupV]
  | consInt k0 n0 rest ih =>
    intro kw rs' kw' h
    rw [combineKwargs] at h
    cases hk0 : kw.lookupV k0 with
    | some v0 => rw [hk0] at h; exact absurd h (by simp)
    | none =>
      rw [hk0] at h
      cases hc : combineKwargs rest kw with
      | none => rw [hc] at h; exact absurd h (by simp)
      | some rw2 =>
        obtain ⟨r2, w2⟩ := rw2
        rw [hc] at h
        simp only [Option.map_some', Option.some_inj] at h
        injection h with h1 h2
        subst h1
        subst h2
        obtain ⟨ih1, ih2, ih3, ih4⟩ := ih kw r2 w2 hc
        refine ⟨?_, ?_, ?_, ?_⟩
        · intro k hn
          rw [JDict.lookupV] at hn ⊢
          by_cases he : k0 = k
          · rw [if_pos he] at hn; exact absurd hn (by simp)
          · rw [if_neg he] at hn ⊢; exact ih1 k hn
        · intro k v hv hkwn
          rw [JDict.lookupV] at hv ⊢
          by_cases he : k0 = k
          · rw [if_pos he] at hv ⊢; exact hv
          · rw [if_neg he] at hv ⊢; exact ih2 k v hv hkwn
        · intro k d1 d2 hv hkw
          rw [JDict.lookupV] at hv ⊢
          by_cases he : k0 = k
          · rw [if_pos he] at hv; exact absurd hv (by simp)
          · rw [if_neg he] at hv ⊢; exact ih3 k d1 d2 hv hkw
        · intro k
          rw [ih4 k]
          by_cases he : k0 = k
          · subst he
            by_cases hr : rest.hasKey k0 = true
            · simp [JDict.hasKey, JDict.lookupV, hr]
              intro hn
              have hfalse : rest.hasKey k0 = false := by simp [JDict.hasKey, hn]
              rw [hfalse] at hr
              exact absurd hr (by simp)
            · simp only [Bool.not_eq_true] at hr
              simp [JDict.hasKey, JDict.lookupV, hr, hk0]
          · simp [JDict.hasKey, JDict.lookupV, he]
  | consStr k0 s0 rest ih =>
    intro kw rs' kw' h
    rw [combineKwargs] at h
    cases hk0 : kw.lookupV k0 with
    | some v0 => rw [hk0] at h; exact absurd h (by simp)
    | none =>
      rw [hk0] at h
      cases hc : combineKwargs rest kw with
      | none => rw [hc] at h; exact absurd h (by simp)
      | some rw2 =>
        obtain ⟨r2, w2⟩ := rw2
        rw [hc] at h
        simp only [Option.map_some', Option.some_inj] at h
        injection h with h1 h2
        subst h1
        subst h2
        obtain ⟨ih1, ih2, ih3, ih4⟩ := ih kw r2 w2 hc
        refine ⟨?_, ?_, ?_, ?_⟩
        · intro k hn
          rw [JDict.lookupV] at hn ⊢
          by_cases he : k0 = k
          · rw [if_pos he] at hn; exact absurd hn (by simp)
          · rw [if_neg he] at hn ⊢; exact ih1 k hn
        · intro k v hv hkwn
          rw [JDict.lookupV] at hv ⊢
          by_cases he : k0 = k
          · rw [if_pos he] at hv ⊢; exact hv
          · rw [if_neg he] at hv ⊢; exact ih2 k v hv hkwn
        · intro k d1 d2 hv hkw
          rw [JDict.lookupV] at hv ⊢
          by_cases he : k0 = k
          · rw [if_pos he] at hv; exact absurd hv (by simp)
          · rw [if_neg he] at hv ⊢; exact ih3 k d1 d2 hv hkw
        · intro k
          rw [ih4 k]
          by_cases he : k0 = k
          · subst he
            by_cases hr : rest.hasKey k0 = true
            · simp [JDict.hasKey, JDict.lookupV, hr]
              intro hn
              have hfalse : rest.hasKey k0 = false := by simp [JDict.hasKey, hn]
              rw [hfalse] at hr
              exact absurd hr (by simp)
            · simp only [Bool.not_eq_true] at hr
              simp [JDict.hasKey, JDict.lookupV, hr, hk0]
          · simp [JDict.hasKey, JDict.lookupV, he]
  | consDict k0 sub rest ihsub ih =>
    intro kw rs' kw' h
    rw [combineKwargs] at h
    cases hk0 : kw.lookupV k0 with
    | none =>
      rw [hk0] at h
      cases hc : combineKwargs rest kw with
      | none => rw [hc] at h; exact absurd h (by simp)
      | some rw2 =>
        obtain ⟨r2, w2⟩ := rw2
        rw [hc] at h
        simp only [Option.map_some', Option.some_inj] at h
        injection h with h1 h2
        subst h1
        subst h2
        obtain ⟨ih1, ih2, ih3, ih4⟩ := ih kw r2 w2 hc
        refine ⟨?_, ?_, ?_, ?_⟩
        · intro k hn
          rw [JDict.lookupV] at hn ⊢
          by_cases he : k0 = k
          · rw [if_pos he] at hn; exact absurd hn (by simp)
          · rw [if_neg he] at hn ⊢; exact ih1 k hn
        · intro k v hv hkwn
          rw [JDict.lookupV] at hv ⊢
          by_cases he : k0 = k
          · rw [if_pos he] at hv ⊢; exact hv
          · rw [if_neg he] at hv ⊢; exact ih2 k v hv hkwn
        · intro k d1 d2 hv hkw
          rw [JDict.lookupV] at hv ⊢
          by_cases he : k0 = k
          · rw [← he, hk0] at hkw
            exact absurd hkw (by simp)
          · rw [if_neg he] at hv ⊢; exact ih3 k d1 d2 hv hkw
        · intro k
          rw [ih4 k]
          by_cases he : k0 = k
          · subst he
            by_cases hr : rest.hasKey k0 = true
            · simp [JDict.hasKey, JDict.lookupV, hr]
              intro hn
              have hfalse : rest.hasKey k0 = false := by simp [JDict.hasKey, hn]
              rw [hfalse] at hr
              exact absurd hr (by simp)
            · simp only [Bool.not_eq_true] at hr
              simp [JDict.hasKey, JDict.lookupV, hr, hk0]
          · simp [JDict.hasKey, JDict.lookupV, he]
    | some v0 =>
      cases v0 with
      | int n1 => rw [hk0] at h; exact absurd h (by simp)
      | str s1 => rw [hk0] at h; exact absurd h (by simp)
      | dict d1 =>
        rw [hk0] at h
        cases hc : combineKwargs rest (kw.eraseKey k0) with
        | none => rw [hc] at h; exact absurd h (by simp)
        | some rw2 =>
          obtain ⟨r2, w2⟩ := rw2
          rw [hc] at h
          simp only [Option.map_some', Option.some_inj] at h
          injection h with h1 h2
          subst h1
          subst h2
          obtain ⟨ih1, ih2, ih3, ih4⟩ := ih (kw.eraseKey k0) r2 w2 hc
          refine ⟨?_, ?_, ?_, ?_⟩
          · intro k hn
            rw [JDict.lookupV] at hn ⊢
            by_cases he : k0 = k
            · rw [if_pos he] at hn; exact absurd hn (by simp)
            · rw [if_neg he] at hn ⊢; exact ih1 k hn
          · intro k v hv hkwn
            rw [JDict.lookupV] at hv ⊢
            by_cases he : k0 = k
            · rw [← he] at hkwn
              rw [hk0] at hkwn
              exact absurd hkwn (by simp)
            · rw [if_neg he] at hv ⊢
              exact ih2 k v hv (by rw [lookupV_eraseKey_ne kw k0 k he]; exact hkwn)
          · intro k d1' d2 hv hkw
            rw [JDict.lookupV] at hv ⊢
            by_cases he : k0 = k
            · rw [if_pos he] at hv ⊢
              rw [← he] at hkw
              rw [hk0] at hkw
              injection hkw with hkw'
              injection hkw' with hkw''
              injection hv with hv'
              injection hv' with hv''
              rw [← hkw'', ← hv'']
            · rw [if_neg he] at hv ⊢
              exact ih3 k d1' d2 hv (by rw [lookupV_eraseKey_ne kw k0 k he]; exact hkw)
          · intro k
            rw [ih4 k]
            by_cases he : k0 = k
            · subst he
              by_cases hr : rest.hasKey k0 = true
              · simp [JDict.hasKey, JDict.lookupV, hr]
                intro hn
                have hfalse : rest.hasKey k0 = false := by simp [JDict.hasKey, hn]
                rw [hfalse] at hr
                exact absurd hr (by simp)
              · simp only [Bool.not_eq_true] at hr
                simp [JDict.hasKey, JDict.lookupV, hr, lookupV_eraseKey_self]
            · simp [JDict.hasKey, JDict.lookupV, he, lookupV_eraseKey_ne kw k0 k he]

/-- **C3 counterexample.**  On the collision at key `"a"` between kwargs
`{"a": {"b": {"c": 1, "d": 2}}}` and overrides `{"a": {"b": {"c": 42}}}`,
the code's merge `{**cur_kwargs[k], **random_states[k]}` replaces the nested
`"b"` mapping wholesale: the caller's entry `"d"` — which the override does
not mention — is lost, whereas the deep merge described by the claim keeps
it. -/
theorem kwargsMerge_counterexample :
    mergedC3.leafIntAt ["a", "b", "c"] = some 42 ∧
    mergedC3.leafIntAt ["a", "b", "d"] = none ∧
    kwC3.leafIntAt ["a", "b", "d"] = some 2 ∧
    rsC3.leafIntAt ["a", "b", "d"] = none ∧
    specMergedC3.leafIntAt ["a", "b", "d"] = some 2 := by
  refine ⟨by decide, by decide, by decide, by decide, by decide⟩

/-- **C3 amended.**  On a top-level key collision the merged value is the
one-level dictionary union `{**caller, **override}`: among the immediate keys
of the colliding value the override's entries take precedence and the
caller's entries the override does not mention are preserved, but each such
entry is taken from one side whole — deeper levels are replaced wholesale,
not deep-merged.  Colliding keys are removed from the remaining kwargs;
non-colliding entries of each side pass through unchanged. -/
theorem kwargsMerge_amended (rs kw rs' kw' : JDict)
    (h : combineKwargs rs kw = some (rs', kw')) :
    (∀ k d1 d2, kw.lookupV k = some (.dict d1) → rs.lookupV k = some (.dict d2) →
      rs'.lookupV k = some (.dict (d1.unionRight d2)) ∧ kw'.lookupV k = none ∧
      (∀ k2, (d1.unionRight d2).lookupV k2 = (d2.lookupV k2).or (d1.lookupV k2))) ∧
    (∀ k v, rs.lookupV k = some v → kw.lookupV k = none →
      rs'.lookupV k = some v ∧ kw'.lookupV k = none) ∧
    (∀ k, rs.lookupV k = none →
      rs'.lookupV k = none ∧ kw'.lookupV k = kw.lookupV k) := by
  obtain ⟨h1, h2, h3, h4⟩ := combineKwargs_spec rs kw rs' kw' h
  refine ⟨?_, ?_, ?_⟩
  · intro k d1 d2 hkw hrs
    refine ⟨h3 k d1 d2 hrs hkw, ?_, fun k2 => lookupV_unionRight d1 d2 k2⟩
    rw [h4 k]
    have hks : rs.hasKey k = true := by simp [JDict.hasKey, hrs]
    rw [hks]
    simp
  · intro k v hrs hkw
    refine ⟨h2 k v hrs hkw, ?_⟩
    rw [h4 k]
    have hks : rs.hasKey k = true := by simp [JDict.hasKey, hrs]
    rw [hks]
    simp
  · intro k hrs
    refine ⟨h1 k hrs, ?_⟩
    rw [h4 k]
    have hks : rs.hasKey k = false := by simp [JDict.hasKey, hrs]
    rw [hks]
    simp

/-- Witness for C3's amended statement on the concrete collision `rsC3` over
`kwC3`. -/
theorem kwargsMerge_amended_witness :
    mergedC3.lookupV "a" = some (.dict
      ((JDict.consDict "b" (JDict.consInt "c" 1 (JDict.consInt "d" 2 JDict.nil))
          JDict.nil).unionRight
        (JDict.consDict "b" (JDict.consInt "c" 42 JDict.nil) JDict.nil))) := by
  have h := (kwargsMerge_amended rsC3 kwC3 mergedC3 JDict.nil (by decide)).1 "a"
    (JDict.consDict "b" (JDict.consInt "c" 1 (JDict.consInt "d" 2 JDict.nil)) JDict.nil)
    (JDict.consDict "b" (JDict.consInt "c" 42 JDict.nil) JDict.nil)
    (by decide) (by decide)
  exact h.1

theorem SDict.isEmpty_iff (d : SDict) : d.isEmpty = true ↔ d = SDict.nil := by
  cases d <;> simp [SDict.isEmpty]

theorem SDict.lookupV_consV (k : String) (sv : SV) (r : SDict) (k2 : String) :
    (SDict.consV k sv r).lookupV k2 = if k = k2 then some sv else r.lookupV k2 := by
  cases sv <;> simp [SDict.consV, SDict.lookupV]

theorem SDict.isEmpty_set (d : SDict) (k : String) (sv : SV) :
    (d.set k sv).isEmpty = false := by
  cases d with
  | nil => cases sv <;> rfl
  | consInt k' n r =>
    by_cases h : k' = k <;> cases sv <;> simp [SDict.set, SDict.consV, SDict.isEmpty, h]
  | consDict k' s r =>
    by_cases h : k' = k <;> cases sv <;> simp [SDict.set, SDict.consV, SDict.isEmpty, h]

theorem SDict.hasKey_set (d : SDict) (k : String) (sv : SV) (k2 : String) :
    (d.set k sv).hasKey k2 = if k = k2 then true else d.hasKey k2 := by
  induction d with
  | nil =>
    rw [SDict.set, SDict.hasKey, SDict.lookupV_consV]
    by_cases h : k = k2 <;> simp [h, SDict.hasKey, SDict.lookupV]
  | consInt k' n r ih =>
    rw [SDict.set]
    by_cases h : k' = k
    · rw [if_pos h, SDict.hasKey, SDict.lookupV_consV]
      by_cases h2 : k = k2
      · simp [h2]
      · subst h
        simp [h2, SDict.hasKey, SDict.lookupV]
    · rw [if_neg h]
      by_cases h2 : k' = k2
      · simp [SDict.hasKey, SDict.lookupV, h2]
      · simp only [SDict.hasKey, SDict.lookupV, if_neg h2]
        exact ih
  | consDict k' s r ihs ihr =>
    rw [SDict.set]
    by_cases h : k' = k
    · rw [if_pos h, SDict.hasKey, SDict.lookupV_consV]
      by_cases h2 : k = k2
      · simp [h2]
      · subst h
        simp [h2, SDict.hasKey, SDict.lookupV]
    · rw [if_neg h]
      by_cases h2 : k' = k2
      · simp [SDict.hasKey, SDict.lookupV, h2]
      · simp only [SDict.hasKey, SDict.lookupV, if_neg h2]
        exact ihr

theorem SDict.leafPaths_set (d : SDict) (k : String) (s : SDict)
    (h : d.hasKey k = false) :
    (d.set k (.dict s)).leafPaths = d.leafPaths ++ (s.leafPaths.map (fun p => k :: p)) := by
  induction d with
  | nil => simp [SDict.set, SDict.consV, SDict.leafPaths]
  | consInt k' n r ih =>
    have hne : ¬ (k' = k) := by
      intro he
      rw [SDict.hasKey, SDict.lookupV, if_pos he] at h
      simp at h
    have hr : r.hasKey k = false := by
      rw [SDict.hasKey, SDict.lookupV, if_neg hne] at h
      exact h
    rw [SDict.set, if_neg hne, SDict.leafPaths, ih hr, SDict.leafPaths]
    rfl
  | consDict k' s' r ihs ihr =>
    have hne : ¬ (k' = k) := by
      intro he
      rw [SDict.hasKey, SDict.lookupV, if_pos he] at h
      simp at h
    have hr : r.hasKey k = false := by
      rw [SDict.hasKey, SDict.lookupV, if_neg hne] at h
      exact h
    rw [SDict.set, if_neg hne, SDict.leafPaths, ihr hr, SDict.leafPaths,
      List.append_assoc]

theorem containsKeyDeep_eq (c : JDict) (key : String) :
    containsKeyDeep c key = (c.hasKey key || dictsContain c key) := by
  induction c with
  | nil => rfl
  | consInt k n r ih =>
    by_cases h : k = key <;>
      simp [containsKeyDeep, dictsContain, JDict.hasKey, JDict.lookupV, h, ih,
        Bool.or_assoc, Bool.or_comm, Bool.or_left_comm]
  | consStr k s r ih =>
    by_cases h : k = key <;>
      simp [containsKeyDeep, dictsContain, JDict.hasKey, JDict.lookupV, h, ih,
        Bool.or_assoc, Bool.or_comm, Bool.or_left_comm]
  | consDict k sub r ihsub ih =>
    by_cases h : k = key <;>
      simp [containsKeyDeep, dictsContain, JDict.hasKey, JDict.lookupV, h, ih,
        Bool.or_assoc, Bool.or_comm, Bool.or_left_comm]

theorem searchGo_isEmpty (key : String) (v : Int) :
    ∀ (c : JDict) (d : SDict),
      ((searchGo key v c d).isEmpty = true ↔
        (d.isEmpty = true ∧ dictsContain c key = false)) := by
  intro c
  induction c with
  | nil => intro d; simp [searchGo, dictsContain]
  | consInt k n r ih => intro d; simp [searchGo, dictsContain, ih]
  | consStr k s r ih => intro d; simp [searchGo, dictsContain, ih]
  | consDict k sub rest ihsub ihrest =>
    intro d
    simp only [searchGo]
    by_cases hse : (searchGo key v sub
        (if sub.hasKey key = true then SDict.consInt key v SDict.nil
          else SDict.nil)).isEmpty = true
    · have hcs : containsKeyDeep sub key = false := by
        rw [containsKeyDeep_eq]
        rcases (ihsub _).mp hse with ⟨hinit, hdc⟩
        by_cases hk : sub.hasKey key = true
        · rw [if_pos hk] at hinit
          exact absurd hinit (by simp [SDict.isEmpty])
        · simp only [Bool.not_eq_true] at hk
          simp [hk, hdc]
      rw [if_pos hse, ihrest]
      simp [dictsContain, hcs]
    · have hcs : containsKeyDeep sub key = true := by
        rw [containsKeyDeep_eq]
        by_cases hk : sub.hasKey key = true
        · simp [hk]
        · simp only [Bool.not_eq_true] at hk
          by_cases hdc : dictsContain sub key = true
          · simp [hdc]
          · exfalso
            apply hse
            rw [ihsub]
            simp only [Bool.not_eq_true] at hdc
            refine ⟨?_, hdc⟩
            rw [if_neg (by simp [hk])]
            rfl
      rw [if_neg hse, ihrest]
      simp [SDict.isEmpty_set, dictsContain, hcs]

theorem searchForKey_isEmpty (config : JDict) (key : String) (v : Int) :
    ((searchForKey config key v).isEmpty = true ↔
      containsKeyDeep config key = false) := by
  rw [searchForKey, searchGo_isEmpty, containsKeyDeep_eq]
  by_cases hk : config.hasKey key = true
  · rw [if_pos hk]
    simp [SDict.isEmpty, hk]
  · simp only [Bool.not_eq_true] at hk
    rw [if_neg (by simp [hk])]
    simp [SDict.isEmpty, hk]

theorem SDict.allLeaves_set (d : SDict) (k : String) (s : SDict) (v : Int)
    (hd : d.allLeaves v = true) (hs : s.allLeaves v = true) :
    (d.set k (.dict s)).allLeaves v = true := by
  induction d with
  | nil => simp [SDict.set, SDict.consV, SDict.allLeaves, hs]
  | consInt k' n r ih =>
    rw [SDict.allLeaves] at hd
    simp only [Bool.and_eq_true, beq_iff_eq] at hd
    obtain ⟨hn, hr⟩ := hd
    by_cases h : k' = k
    · rw [SDict.set, if_pos h]
      simp [SDict.consV, SDict.allLeaves, hs, hr]
    · rw [SDict.set, if_neg h]
      simp [SDict.allLeaves, hn, ih hr]
  | consDict k' s' r ihs ihr =>
    rw [SDict.allLeaves] at hd
    simp only [Bool.and_eq_true] at hd
    obtain ⟨hs', hr⟩ := hd
    by_cases h : k' = k
    · rw [SDict.set, if_pos h]
      simp [SDict.consV, SDict.allLeaves, hs, hr]
    · rw [SDict.set, if_neg h]
      simp [SDict.allLeaves, hs', ihr hr]

theorem searchGo_allLeaves (key : String) (v : Int) :
    ∀ (c : JDict) (d : SDict), d.allLeaves v = true →
      (searchGo key v c d).allLeaves v = true := by
  intro c
  induction c with
  | nil => intro d hd; simpa [searchGo] using hd
  | consInt k n r ih => intro d hd; simp only [searchGo]; exact ih d hd
  | consStr k s r ih => intro d hd; simp only [searchGo]; exact ih d hd
  | consDict k sub rest ihsub ihrest =>
    intro d hd
    simp only [searchGo]
    have hinit : (if sub.hasKey key = true then SDict.consInt key v SDict.nil
        else SDict.nil).allLeaves v = true := by
      by_cases hk : sub.hasKey key = true <;> simp [hk, SDict.allLeaves]
    by_cases hse : (searchGo key v sub
        (if sub.hasKey key = true then SDict.consInt key v SDict.nil
          else SDict.nil)).isEmpty = true
    · rw [if_pos hse]
      exact ihrest d hd
    · rw [if_neg hse]
      exact ihrest _ (SDict.allLeaves_set d k _ v hd (ihsub _ hinit))

theorem searchGo_leafPaths (key : String) (v : Int) :
    ∀ (c : JDict) (d : SDict),
      nodupKeysDeep c = true → cleanFor key c = true →
      (∀ k2, d.hasKey k2 = true → k2 = key ∨ c.hasKey k2 = false) →
      (searchGo key v c d).leafPaths
        = d.leafPaths ++ pathsToKey.pathsLoop c key := by
  intro c
  induction c with
  | nil => intro d _ _ _; simp [searchGo, pathsToKey.pathsLoop]
  | consInt k n r ih =>
    intro d hnd hcl hd
    simp only [searchGo, pathsToKey.pathsLoop]
    refine ih d ?_ ?_ ?_
    · simpa [nodupKeysDeep, Bool.and_eq_true] using (by
        simpa [nodupKeysDeep, Bool.and_eq_true] using hnd : _ ∧ nodupKeysDeep r = true).2
    · simpa [cleanFor] using hcl
    · intro k2 hk2
      rcases hd k2 hk2 with h1 | h1
      · exact Or.inl h1
      · refine Or.inr ?_
        simp only [JDict.hasKey, JDict.lookupV] at h1 ⊢
        by_cases he : k = k2
        · rw [if_pos he] at h1; simp at h1
        · rw [if_neg he] at h1; exact h1
  | consStr k s r ih =>
    intro d hnd hcl hd
    simp only [searchGo, pathsToKey.pathsLoop]
    refine ih d ?_ ?_ ?_
    · simpa [nodupKeysDeep, Bool.and_eq_true] using (by
        simpa [nodupKeysDeep, Bool.and_eq_true] using hnd : _ ∧ nodupKeysDeep r = true).2
    · simpa [cleanFor] using hcl
    · intro k2 hk2
      rcases hd k2 hk2 with h1 | h1
      · exact Or.inl h1
      · refine Or.inr ?_
        simp only [JDict.hasKey, JDict.lookupV] at h1 ⊢
        by_cases he : k = k2
        · rw [if_pos he] at h1; simp at h1
        · rw [if_neg he] at h1; exact h1
  | consDict k sub rest ihsub ihrest =>
    intro d hnd hcl hd
    simp only [searchGo, pathsToKey.pathsLoop]
    have hnd0 : (rest.hasKey k = false ∧ nodupKeysDeep sub = true) ∧
        nodupKeysDeep rest = true := by
      simpa only [nodupKeysDeep, Bool.and_eq_true, Bool.not_eq_true'] using hnd
    have hnd' : rest.hasKey k = false ∧ nodupKeysDeep sub = true ∧
        nodupKeysDeep rest = true := ⟨hnd0.1.1, hnd0.1.2, hnd0.2⟩
    have hcl0 : ((!(k == key && containsKeyDeep sub key)) = true ∧
        cleanFor key sub = true) ∧ cleanFor key rest = true := by
      simpa only [cleanFor, Bool.and_eq_true] using hcl
    have hclk : k = key → containsKeyDeep sub key = false := by
      intro he
      have h1 := hcl0.1.1
      rw [he] at h1
      simp only [Bool.not_eq_true'] at h1
      simpa using h1
    have hcl' : (k = key → containsKeyDeep sub key = false) ∧
        cleanFor key sub = true ∧ cleanFor key rest = true :=
      ⟨hclk, hcl0.1.2, hcl0.2⟩
    have hsub_paths : (searchGo key v sub
        (if sub.hasKey key = true then SDict.consInt key v SDict.nil
          else SDict.nil)).leafPaths = pathsToKey sub key := by
      rw [ihsub _ hnd'.2.1 hcl'.2.1 ?_]
      · by_cases hk : sub.hasKey key = true <;>
          simp [hk, SDict.leafPaths, pathsToKey]
      · intro k2 hk2
        left
        by_cases hk : sub.hasKey key = true
        · rw [if_pos hk] at hk2
          simp only [SDict.hasKey, SDict.lookupV] at hk2
          by_cases he : key = k2
          · exact he.symm
          · rw [if_neg he] at hk2; simp [SDict.lookupV] at hk2
        · rw [if_neg hk] at hk2
          simp [SDict.hasKey, SDict.lookupV] at hk2
    by_cases hse : (searchGo key v sub
        (if sub.hasKey key = true then SDict.consInt key v SDict.nil
          else SDict.nil)).isEmpty = true
    · rw [if_pos hse]
      have hps : pathsToKey sub key = [] := by
        rw [← hsub_paths, (SDict.isEmpty_iff _).mp hse]
        rfl
      rw [ihrest d hnd'.2.2 hcl'.2.2 ?_]
      · rw [hps]
        simp
      · intro k2 hk2
        rcases hd k2 hk2 with h1 | h1
        · exact Or.inl h1
        · refine Or.inr ?_
          simp only [JDict.hasKey, JDict.lookupV] at h1 ⊢
          by_cases he : k = k2
          · rw [if_pos he] at h1; simp at h1
          · rw [if_neg he] at h1; exact h1
    · rw [if_neg hse]
      have hcontains : containsKeyDeep sub key = true := by
        by_cases hc : containsKeyDeep sub key = true
        · exact hc
        · exfalso
          apply hse
          rw [show (searchGo key v sub
              (if sub.hasKey key = true then SDict.consInt key v SDict.nil
                else SDict.nil)) = searchForKey sub key v from rfl,
            searchForKey_isEmpty]
          simpa using hc
      have hknotd : d.hasKey k = false := by
        by_cases hdk : d.hasKey k = true
        · rcases hd k hdk with h1 | h1
          · exact absurd (hcl'.1 h1) (by simp [hcontains])
          · exfalso
            simp [JDict.hasKey, JDict.lookupV] at h1
        · simpa using hdk
      rw [ihrest _ hnd'.2.2 hcl'.2.2 ?_]
      · rw [SDict.leafPaths_set d k _ hknotd, hsub_paths, List.append_assoc]
      · intro k2 hk2
        rw [SDict.hasKey_set] at hk2
        by_cases he : k = k2
        · rw [← he]
          exact Or.inr hnd'.1
        · rw [if_neg he] at hk2
          rcases hd k2 hk2 with h1 | h1
          · exact Or.inl h1
          · refine Or.inr ?_
            simp only [JDict.hasKey, JDict.lookupV] at h1 ⊢
            by_cases he2 : k = k2
            · exact absurd he2 he
            · rw [if_neg he2] at h1; exact h1

/-- **C7 counterexample.**  On `{"random_state": {"random_state": 7}}` the
locator first records the top-level match (`d["random_state"] = 42`) and then
overwrites it with the non-empty recursive sub-map under the same key: the
result's only recorded leaf is the nested path, and the top-level path to a
key named as the seed parameter is not recorded with the initial value, so
the result does not contain exactly the paths to the matching keys. -/
theorem searchForKey_counterexample :
    searchForKey cfgC7 "random_state" 42 =
      SDict.consDict "random_state" (SDict.consInt "random_state" 42 SDict.nil)
        SDict.nil ∧
    (searchForKey cfgC7 "random_state" 42).leafPaths
      = [["random_state", "random_state"]] ∧
    pathsToKey cfgC7 "random_state"
      = [["random_state"], ["random_state", "random_state"]] := by
  refine ⟨by decide, by decide, ?_⟩
  simp [pathsToKey, pathsToKey.pathsLoop, cfgC7, JDict.hasKey, JDict.lookupV]

/-- **C7 amended.**  For every configuration whose keys are pairwise distinct
at every level (the Python-dict invariant) and in which no key named as the
seed parameter itself holds a mapping containing the seed parameter, the
locator returns an empty map exactly when no key at any depth is named as
the seed parameter; otherwise it returns the map whose recorded entries are
exactly the paths to such keys, each recorded with the caller-supplied
initial value, a sub-map being attached under a key only when the recursion
into that mapping yields a non-empty result.  (Without the proviso, the
attached sub-map overwrites the already recorded entry for that key, as the
counterexample shows.) -/
theorem searchForKey_amended (config : JDict) (key : String) (v : Int)
    (hnd : nodupKeysDeep config = true) (hcl : cleanFor key config = true) :
    ((searchForKey config key v).isEmpty = true ↔
      containsKeyDeep config key = false) ∧
    (searchForKey config key v).allLeaves v = true ∧
    (searchForKey config key v).leafPaths = pathsToKey config key := by
  refine ⟨searchForKey_isEmpty config key v, ?_, ?_⟩
  · rw [searchForKey]
    apply searchGo_allLeaves
    by_cases hk : config.hasKey key = true <;> simp [hk, SDict.allLeaves]
  · rw [searchForKey, searchGo_leafPaths key v config _ hnd hcl ?_]
    · by_cases hk : config.hasKey key = true <;>
        simp [hk, SDict.leafPaths, pathsToKey]
    · intro k2 hk2
      left
      by_cases hk : config.hasKey key = true
      · rw [if_pos hk] at hk2
        simp only [SDict.hasKey, SDict.lookupV] at hk2
        by_cases he : key = k2
        · exact he.symm
        · rw [if_neg he] at hk2
          simp [SDict.lookupV] at hk2
      · rw [if_neg hk] at hk2
        simp [SDict.hasKey, SDict.lookupV] at hk2

/-- Witness for C7's amended statement on the configuration
`{"x": {"random_state": 1}, "y": 3}`. -/
theorem searchForKey_amended_witness :
    ((searchForKey cfgW7 "random_state" 42).isEmpty = true ↔
      containsKeyDeep cfgW7 "random_state" = false) ∧
    (searchForKey cfgW7 "random_state" 42).allLeaves 42 = true ∧
    (searchForKey cfgW7 "random_state" 42).leafPaths
      = pathsToKey cfgW7 "random_state" :=
  searchForKey_amended cfgW7 "random_state" 42 (by decide) (by decide)
